import Mathlib

/-!
Verification of the ShareTab expense-splitting engine.

The Go source represents money as `float64` and rounds to two decimals with
`math.Round(x*100)/100` (half away from zero).  We embed monetary values as
exact rationals `ℚ` with an explicit two-decimal rounding function, Go maps
`map[string]float64` as insertion-ordered association lists (Go's upsert
`if !exists { m[k] = 0 }; m[k] += x` becomes `addBal`), and the settlement
cursor loop as a fuel-based recursion (the fuel is sufficient on the
cent-quantized balances the pipeline produces).
-/

namespace ShareTab

/-- `math.Round`: round half away from zero, as used by `utils.Round`. -/
def roundHalf (q : ℚ) : ℤ := if 0 ≤ q then ⌊q + 1/2⌋ else -⌊-q + 1/2⌋

/-- `utils.Round`: round a monetary value to 2 decimal places. -/
def Round (q : ℚ) : ℚ := (roundHalf (q * 100) : ℚ) / 100

/-- A value is cent-quantized: an integer number of cents. -/
def IsCents (q : ℚ) : Prop := ∃ k : ℤ, q = (k : ℚ) / 100

/-- Balance maps `map[string]float64`, as insertion-ordered association lists. -/
abbrev Balances := List (String × ℚ)

/-- Go map read `m[p]` (zero value when absent). -/
def bal : Balances → String → ℚ
  | [], _ => 0
  | (q, v) :: rest, p => if q = p then v else bal rest p

/-- Go map upsert-accumulate: `if _, ok := m[p]; !ok { m[p] = 0 }; m[p] += x`. -/
def addBal : Balances → String → ℚ → Balances
  | [], p, x => [(p, x)]
  | (q, v) :: rest, p, x => if q = p then (q, v + x) :: rest else (q, v) :: addBal rest p x

/-- The key list of an association list. -/
def keysAL {α : Type} (l : List (String × α)) : List String := l.map Prod.fst

/-- Sum of all balance values in a map. -/
def sumB (B : Balances) : ℚ := (B.map Prod.snd).sum

/-- All values of a balance map are cent-quantized. -/
def AllCents (B : Balances) : Prop := ∀ kv ∈ B, IsCents kv.2

/-- `models.Item`: an individual item in an expense. -/
structure Item where
  description : String
  unitPrice : ℚ
  quantity : ℤ
  amount : ℚ
  itemDiscount : ℚ
  paidBy : String
  consumers : List String
deriving DecidableEq

/-- The two split types handled by `calculateBalances` (`utils.SplitTypeEqual`,
`utils.SplitTypeItems`). -/
inductive SplitType where
  | equal
  | items
deriving DecidableEq

/-- `models.Expense` (engine-relevant fields). -/
structure Expense where
  amount : ℚ
  subtotal : ℚ
  tax : ℚ
  serviceCharge : ℚ
  totalDiscount : ℚ
  paidBy : String
  splitType : SplitType
  splitAmong : List String
  items : List Item
deriving DecidableEq

/-- `processEqualSplitExpense`: payer is credited the full amount, then each
person in `splitAmong` is debited the rounded equal share. -/
def processEqualSplitExpense (e : Expense) (B : Balances) : Balances :=
  let B1 := addBal B e.paidBy e.amount
  let share := Round (e.amount / (e.splitAmong.length : ℚ))
  e.splitAmong.foldl (fun b p => addBal b p (-share)) B1

/-- One iteration of the per-item loop of `processItemSplitExpense`: the item
payer is credited the item amount, every consumer is debited the rounded
share and has the share tracked in `personItemTotals`, and the item amount is
accumulated into `totalItemAmount`. -/
def itemStep (st : Balances × Balances × ℚ) (item : Item) : Balances × Balances × ℚ :=
  let B1 := addBal st.1 item.paidBy item.amount
  let share := Round (item.amount / (item.consumers.length : ℚ))
  let st2 := item.consumers.foldl
    (fun (pr : Balances × Balances) c => (addBal pr.1 c (-share), addBal pr.2 c share))
    (B1, st.2.1)
  (st2.1, st2.2, st.2.2 + item.amount)

/-- The per-item loop of `processItemSplitExpense`: returns the updated
balances, the `personItemTotals` map and `totalItemAmount`. -/
def processItemsLoop (items : List Item) (B : Balances) : Balances × Balances × ℚ :=
  items.foldl itemStep (B, ([] : Balances), (0 : ℚ))

/-- The `payerCounts` map built by `findPrimaryPayer`. -/
def payerCountsOf (items : List Item) : Balances :=
  items.foldl (fun m it => addBal m it.paidBy it.amount) []

/-- The selection loop of `findPrimaryPayer`: keep the entry whose amount
strictly exceeds the highest seen so far. -/
def bestPayer (counts : Balances) (acc : String × ℚ) : String × ℚ :=
  counts.foldl (fun acc kv => if kv.2 > acc.2 then (kv.1, kv.2) else acc) acc

/-- `findPrimaryPayer`: the item payer with the highest paid total (strictly
greater than all previously seen, starting from zero), falling back to the
expense's `PaidBy`. -/
def findPrimaryPayer (e : Expense) : String :=
  let best := bestPayer (payerCountsOf e.items) ("", 0)
  if best.1 = "" then e.paidBy else best.1

/-- One iteration of the proportional extra-charge loop: debit the person's
rounded proportional share, accumulate `totalAllocated`, remember
`lastPerson`. -/
def extraStep (E T : ℚ) (st : Balances × ℚ × String) (kv : String × ℚ) :
    Balances × ℚ × String :=
  let share := Round (E * (kv.2 / T))
  (addBal st.1 kv.1 (-share), st.2.1 + share, kv.1)

/-- The proportional extra-charge loop of `processItemSplitExpense`: returns
the updated balances, `totalAllocated` and `lastPerson`. -/
def extraLoop (E T : ℚ) (totals : Balances) (B : Balances) : Balances × ℚ × String :=
  totals.foldl (extraStep E T) (B, (0 : ℚ), "")

/-- The extra-charge distribution of `processItemSplitExpense`: the
proportional loop followed by the rounding-difference adjustment taken from
the last person processed. -/
def distributeExtraCharges (E T : ℚ) (totals : Balances) (B : Balances) : Balances :=
  let st := extraLoop E T totals B
  let diff := Round (E - st.2.1)
  if diff ≠ 0 ∧ st.2.2 ≠ "" then addBal st.1 st.2.2 (-diff) else st.1

/-- `processItemSplitExpense`: per-item credits/debits, then, when there are
extra charges and a positive item total, credit the primary payer and
distribute the extra charges proportionally. -/
def processItemSplitExpense (e : Expense) (B : Balances) : Balances :=
  let extraCharges := e.tax + e.serviceCharge - e.totalDiscount
  let st := processItemsLoop e.items B
  if extraCharges ≠ 0 ∧ st.2.2 > 0 then
    distributeExtraCharges extraCharges st.2.2 st.2.1
      (addBal st.1 (findPrimaryPayer e) extraCharges)
  else st.1

/-- One step of the expense walk in `calculateBalances`. -/
def aggStep (B : Balances) (e : Expense) : Balances :=
  match e.splitType with
  | .equal => processEqualSplitExpense e B
  | .items => processItemSplitExpense e B

/-- `calculateBalances`: walk all expenses, then round every balance. -/
def calculateBalances (es : List Expense) : Balances :=
  (es.foldl aggStep []).map (fun kv => (kv.1, Round kv.2))

/-- `personItemTotals` as computed by the item loop (independent of the
starting balances). -/
def personTotalsOf (items : List Item) : Balances := (processItemsLoop items []).2.1

/-- `totalItemAmount` as computed by the item loop. -/
def totalItemAmountOf (items : List Item) : ℚ := (processItemsLoop items []).2.2

/-- `PersonBalance` from the settlement service. -/
structure PersonBalance where
  person : String
  balance : ℚ
deriving DecidableEq

/-- `extractCreditors`: people with positive balance, in map order. -/
def extractCreditors (B : Balances) : List PersonBalance :=
  B.filterMap (fun kv => if kv.2 > 0 then some ⟨kv.1, kv.2⟩ else none)

/-- `extractDebtors`: people with negative balance, stored as positive
magnitudes. -/
def extractDebtors (B : Balances) : List PersonBalance :=
  B.filterMap (fun kv => if kv.2 < 0 then some ⟨kv.1, -kv.2⟩ else none)

/-- One outer iteration of `sortByBalance`'s double loop: compare the current
slot against every later element, swapping when smaller; returns the final
slot value and the remaining array tail. -/
def sortPass : PersonBalance → List PersonBalance → PersonBalance × List PersonBalance
  | c, [] => (c, [])
  | c, x :: xs =>
    if c.balance < x.balance then
      let pr := sortPass x xs
      (pr.1, c :: pr.2)
    else
      let pr := sortPass c xs
      (pr.1, x :: pr.2)

/-- The outer loop of `sortByBalance`, fueled by the list length. -/
def sortFuel : Nat → List PersonBalance → List PersonBalance
  | 0, _ => []
  | _ + 1, [] => []
  | f + 1, x :: xs =>
    let pr := sortPass x xs
    pr.1 :: sortFuel f pr.2

/-- `sortByBalance`: descending exchange sort. -/
def sortByBalance (l : List PersonBalance) : List PersonBalance := sortFuel l.length l

/-- `models.Settlement`. -/
structure Settlement where
  fromPerson : String
  toPerson : String
  amount : ℚ
deriving DecidableEq

/-- The cursor loop of `generateSettlements`.  Advancing cursor `i` (resp.
`j`) is modeled by dropping the head creditor (resp. debtor); the fuel bounds
the number of iterations (on cent-quantized balances each iteration retires
at least one person, so the fuel in `generateSettlements` is sufficient). -/
def gsFuel : Nat → List PersonBalance → List PersonBalance → List Settlement
  | 0, _, _ => []
  | _ + 1, [], _ => []
  | _ + 1, _ :: _, [] => []
  | f + 1, c :: cs, d :: ds =>
    let amount := Round (min c.balance d.balance)
    let c2 : PersonBalance := ⟨c.person, c.balance - amount⟩
    let d2 : PersonBalance := ⟨d.person, d.balance - amount⟩
    let rest :=
      if Round c2.balance = 0 then
        if Round d2.balance = 0 then gsFuel f cs ds
        else gsFuel f cs (d2 :: ds)
      else
        if Round d2.balance = 0 then gsFuel f (c2 :: cs) ds
        else gsFuel f (c2 :: cs) (d2 :: ds)
    if amount > 0 then ⟨d.person, c.person, amount⟩ :: rest else rest

/-- `generateSettlements`. -/
def generateSettlements (creditors debtors : List PersonBalance) : List Settlement :=
  gsFuel (creditors.length + debtors.length) creditors debtors

/-- `calculateOptimalSettlements`. -/
def calculateOptimalSettlements (B : Balances) : List Settlement :=
  generateSettlements (sortByBalance (extractCreditors B)) (sortByBalance (extractDebtors B))

/-- `calculateOptimalSettlements` with the balance map threaded through,
mirroring that the Go code hands the map only to the read-only extractors and
mutates only the extracted copies. -/
def calculateOptimalSettlementsTrace (B : Balances) : List Settlement × Balances :=
  let creditors := extractCreditors B
  let debtors := extractDebtors B
  (generateSettlements (sortByBalance creditors) (sortByBalance debtors), B)

/-- Apply one settlement to a balance map: the from-person's balance grows by
the amount, the to-person's balance shrinks by it. -/
def applySettlement (B : Balances) (s : Settlement) : Balances :=
  addBal (addBal B s.fromPerson s.amount) s.toPerson (-s.amount)

/-- Apply a settlement list left to right. -/
def applySettlements (B : Balances) (ss : List Settlement) : Balances :=
  ss.foldl applySettlement B

/-- The rounding loss of dividing one item among its consumers. -/
def itemNet (it : Item) : ℚ :=
  it.amount - (it.consumers.length : ℚ) * Round (it.amount / (it.consumers.length : ℚ))

/-- Exact divisibility of a cent amount by a participant count: the amount is
`m` cents per head. -/
def DivisibleAmong (a : ℚ) (n : ℕ) : Prop := ∃ m : ℤ, a = ((m : ℚ) * (n : ℚ)) / 100

/-- Subsystem invariant for the zero-sum claim: every expense has no
tax/service/discount and exactly divisible amounts. -/
def ExactExpense (e : Expense) : Prop :=
  e.tax = 0 ∧ e.serviceCharge = 0 ∧ e.totalDiscount = 0 ∧
    (e.splitType = .equal → DivisibleAmong e.amount e.splitAmong.length) ∧
    (e.splitType = .items → ∀ it ∈ e.items, DivisibleAmong it.amount it.consumers.length)

/-- The running maximum of the amounts in a payer-totals map, starting from a
given initial highest value (zero in `findPrimaryPayer`). -/
def maxVal (l : Balances) (h : ℚ) : ℚ := l.foldl (fun m kv => max m kv.2) h

/-- The person names of a creditor/debtor list. -/
def personsPB (l : List PersonBalance) : List String := l.map PersonBalance.person

/-- Sum of the balances in a creditor/debtor list. -/
def sumPB (l : List PersonBalance) : ℚ := (l.map PersonBalance.balance).sum

/-- All listed balances are positive cent amounts: the invariant of the lists
extracted from a rounded balance map. -/
def GoodList (l : List PersonBalance) : Prop :=
  ∀ pb ∈ l, 0 < pb.balance ∧ IsCents pb.balance

/-- Total amount a person receives across a settlement list. -/
def receivedOf (p : String) (ss : List Settlement) : ℚ :=
  (ss.map (fun s => if s.toPerson = p then s.amount else 0)).sum

/-- Total amount a person pays across a settlement list. -/
def paidOf (p : String) (ss : List Settlement) : ℚ :=
  (ss.map (fun s => if s.fromPerson = p then s.amount else 0)).sum

/-- A concrete expense used as a counterexample input: 100 paid by `a`,
split equally among the three other people `b`, `c`, `d` (each rounded share
is 33.33, losing one cent per expense). -/
def cexEqualExpense : Expense :=
  { amount := 100
    subtotal := 100
    tax := 0
    serviceCharge := 0
    totalDiscount := 0
    paidBy := "a"
    splitType := .equal
    splitAmong := ["b", "c", "d"]
    items := [] }

/-- `models.PersonChargeBreakdown`. -/
structure PersonChargeBreakdown where
  subtotal : ℚ
  tax : ℚ
  serviceCharge : ℚ
  discount : ℚ
  total : ℚ
deriving DecidableEq

/-- The zero value of `PersonChargeBreakdown` (Go's missing-key value). -/
def zeroBD : PersonChargeBreakdown :=
  { subtotal := 0, tax := 0, serviceCharge := 0, discount := 0, total := 0 }

/-- Breakdown maps `map[string]PersonChargeBreakdown`. -/
abbrev BreakdownMap := List (String × PersonChargeBreakdown)

/-- Go map assignment `m[k] = v` (upsert), generic in the value type. -/
def setAL {α : Type} : List (String × α) → String → α → List (String × α)
  | [], p, v => [(p, v)]
  | (q, w) :: rest, p, v => if q = p then (q, v) :: rest else (q, w) :: setAL rest p v

/-- Go map read with a zero default, generic in the value type. -/
def getAL {α : Type} (d : α) : List (String × α) → String → α
  | [], _ => d
  | (q, w) :: rest, p => if q = p then w else getAL d rest p

/-- Go map read on a breakdown map. -/
def getBD (m : BreakdownMap) (p : String) : PersonChargeBreakdown := getAL zeroBD m p

/-- `extractParticipants`: the set of all consumers across the items,
modeled in first-occurrence order. -/
def extractParticipants (items : List Item) : List String :=
  items.foldl (fun acc it =>
    it.consumers.foldl (fun a c => if c ∈ a then a else a ++ [c]) acc) []

/-- The per-item subtotal accumulation of `calculatePersonalCharges`: round
the item amount, and when the consumer list is non-empty add the rounded
equal share to each consumer's subtotal and running total. -/
def bdItemApply (it : Item) (m : BreakdownMap) : BreakdownMap :=
  let itemAmount := Round (it.unitPrice * (it.quantity : ℚ) - it.itemDiscount)
  if it.consumers.length > 0 then
    let share := Round (itemAmount / (it.consumers.length : ℚ))
    it.consumers.foldl (fun m2 c =>
      let old := getBD m2 c
      setAL m2 c { old with subtotal := old.subtotal + share, total := old.total + share }) m
  else m

/-- The breakdown map after the per-item subtotal phase of
`calculatePersonalCharges`. -/
def breakdownAfterItems (items : List Item) (participants : List String) : BreakdownMap :=
  items.foldl (fun m it => bdItemApply it m) (participants.map (fun p => (p, zeroBD)))

/-- `totalSubtotal`: the participants' subtotals summed for the proportion
calculation. -/
def totalSubtotalOf (m : BreakdownMap) (participants : List String) : ℚ :=
  (participants.map (fun p => (getBD m p).subtotal)).sum

/-- One iteration of the proportional extras loop of
`calculatePersonalCharges`: the person's tax/service/discount shares are the
unrounded proportional amounts, the stored fields are their rounded values,
and the stored total is the rounding of the unrounded sum. -/
def applyProportional (tax svc disc stot : ℚ) (st : List (String × ℚ) × BreakdownMap)
    (p : String) : List (String × ℚ) × BreakdownMap :=
  let old := getBD st.2 p
  let proportion := old.subtotal / stot
  let personTax := tax * proportion
  let personService := svc * proportion
  let personDiscount := disc * proportion
  let nbd : PersonChargeBreakdown :=
    { subtotal := old.subtotal
      tax := Round personTax
      serviceCharge := Round personService
      discount := Round personDiscount
      total := Round (old.subtotal + personTax + personService - personDiscount) }
  (setAL st.1 p nbd.total, setAL st.2 p nbd)

/-- One iteration of the equal-extras loop of `calculatePersonalCharges`
(taken when the total subtotal is zero). -/
def applyEqualExtras (tax svc disc : ℚ) (n : ℕ) (st : List (String × ℚ) × BreakdownMap)
    (p : String) : List (String × ℚ) × BreakdownMap :=
  let extraPerPerson := Round ((tax + svc - disc) / (n : ℚ))
  let nbd : PersonChargeBreakdown :=
    { subtotal := 0
      tax := Round (tax / (n : ℚ))
      serviceCharge := Round (svc / (n : ℚ))
      discount := Round (disc / (n : ℚ))
      total := Round extraPerPerson }
  (setAL st.1 p extraPerPerson, setAL st.2 p nbd)

/-- Round every field of a breakdown (the final pass of
`calculatePersonalCharges`). -/
def roundBD (b : PersonChargeBreakdown) : PersonChargeBreakdown :=
  { subtotal := Round b.subtotal
    tax := Round b.tax
    serviceCharge := Round b.serviceCharge
    discount := Round b.discount
    total := Round b.total }

/-- `calculatePersonalCharges`. -/
def calculatePersonalCharges (items : List Item) (tax svc disc : ℚ)
    (participants : List String) : List (String × ℚ) × BreakdownMap :=
  let charges0 : List (String × ℚ) := participants.map (fun p => (p, (0 : ℚ)))
  let bd1 := breakdownAfterItems items participants
  let totalSubtotal := totalSubtotalOf bd1 participants
  let st :=
    if totalSubtotal > 0 ∧ participants.length > 0 then
      participants.foldl (applyProportional tax svc disc totalSubtotal) (charges0, bd1)
    else if totalSubtotal = 0 ∧ participants.length > 0 then
      participants.foldl (applyEqualExtras tax svc disc participants.length) (charges0, bd1)
    else (charges0, bd1)
  (st.1, st.2.map (fun kv => (kv.1, roundBD kv.2)))

/-- `utils.AppError`. -/
structure AppError where
  code : ℕ
  message : String
deriving DecidableEq

/-- `utils.NewValidationError`: HTTP 400 plus a message. -/
def NewValidationError (message : String) : AppError := ⟨400, message⟩

/-- `utils.ValidateRequired`. -/
def ValidateRequired (value fieldName : String) : Option AppError :=
  if value.trim = "" then some (NewValidationError (fieldName ++ " is required")) else none

/-- `utils.ValidatePositive`. -/
def ValidatePositive (value : ℚ) (fieldName : String) : Option AppError :=
  if value ≤ 0 then some (NewValidationError (fieldName ++ " must be positive")) else none

/-- `utils.ValidateNonNegative`. -/
def ValidateNonNegative (value : ℚ) (fieldName : String) : Option AppError :=
  if value < 0 then some (NewValidationError (fieldName ++ " cannot be negative")) else none

/-- `utils.ValidateNotEmpty`. -/
def ValidateNotEmpty {α : Type} (l : List α) (fieldName : String) : Option AppError :=
  if l.length = 0 then some (NewValidationError (fieldName ++ " cannot be empty")) else none

/-- `utils.ValidateItemData`: description, then price, then quantity. -/
def ValidateItemData (unitPrice : ℚ) (quantity : ℤ) (description : String) :
    Option AppError :=
  match ValidateRequired description "item description" with
  | some e => some e
  | none =>
    match ValidatePositive unitPrice "item price" with
    | some e => some e
    | none =>
      if quantity ≤ 0 then some (NewValidationError "item quantity must be positive")
      else none

/-- `utils.ValidateParticipantNames`, with the running index carried. -/
def validateNames : ℕ → List String → Option AppError
  | _, [] => none
  | i, c :: rest =>
    if c.trim = "" then
      some (NewValidationError ("participant " ++ toString (i + 1) ++ " name cannot be empty"))
    else validateNames (i + 1) rest

/-- The per-item loop of `validateCalculationRequest`, with the running
index carried for the `Item %d:` message prefix. -/
def validateItems : ℕ → List Item → Option AppError
  | _, [] => none
  | i, it :: rest =>
    match ValidateItemData it.unitPrice it.quantity it.description with
    | some e => some (NewValidationError ("Item " ++ toString (i + 1) ++ ": " ++ e.message))
    | none =>
      match ValidateRequired it.paidBy "item paidBy" with
      | some e => some (NewValidationError ("Item " ++ toString (i + 1) ++ ": " ++ e.message))
      | none =>
        match ValidateNotEmpty it.consumers "item consumers" with
        | some e => some (NewValidationError ("Item " ++ toString (i + 1) ++ ": " ++ e.message))
        | none =>
          match validateNames 0 it.consumers with
          | some e => some (NewValidationError ("Item " ++ toString (i + 1) ++ ": " ++ e.message))
          | none => validateItems (i + 1) rest

/-- `models.CalculateSingleBillRequest`. -/
structure CalculateSingleBillRequest where
  items : List Item
  tax : ℚ
  serviceCharge : ℚ
  totalDiscount : ℚ
deriving DecidableEq

/-- `validateCalculationRequest`: list non-empty, tax/service/discount
non-negative, then every item validated in order. -/
def validateCalculationRequest (req : CalculateSingleBillRequest) : Option AppError :=
  match ValidateNotEmpty req.items "items" with
  | some e => some e
  | none =>
    match ValidateNonNegative req.tax "tax" with
    | some e => some e
    | none =>
      match ValidateNonNegative req.serviceCharge "service charge" with
      | some e => some e
      | none =>
        match ValidateNonNegative req.totalDiscount "discount" with
        | some e => some e
        | none => validateItems 0 req.items

/-- `utils.NormalizeName`: trim and lowercase. -/
def NormalizeName (name : String) : String := name.trim.toLower

/-- `normalizeItemNames`. -/
def normalizeItems (items : List Item) : List Item :=
  items.map (fun it =>
    { it with paidBy := NormalizeName it.paidBy, consumers := it.consumers.map NormalizeName })

/-- `calculateSubtotal`: sum of the raw (unrounded) item amounts. -/
def calculateSubtotal (items : List Item) : ℚ :=
  (items.map (fun it => it.unitPrice * (it.quantity : ℚ) - it.itemDiscount)).sum

/-- `utils.FormatNameForDisplay`: trim, lowercase, capitalize first letter. -/
def FormatNameForDisplay (name : String) : String :=
  if name.trim = "" then ""
  else (name.trim.toLower.take 1).toUpper ++ name.trim.toLower.drop 1

/-- `utils.FormatNameMapKeys`. -/
def FormatNameMapKeys {α : Type} (m : List (String × α)) : List (String × α) :=
  m.map (fun kv => (FormatNameForDisplay kv.1, kv.2))

/-- `models.SingleBillCalculation`. -/
structure SingleBillCalculation where
  amount : ℚ
  subtotal : ℚ
  tax : ℚ
  serviceCharge : ℚ
  totalDiscount : ℚ
  perPersonCharges : List (String × ℚ)
  perPersonBreakdown : BreakdownMap
deriving DecidableEq

/-- `CalculateSingleBill`: validate, normalize names, extract participants,
allocate charges, compute totals; on a validation error nothing is computed
and only the error is returned. -/
def CalculateSingleBill (req : CalculateSingleBillRequest) :
    Except AppError SingleBillCalculation :=
  match validateCalculationRequest req with
  | some e => .error e
  | none =>
    let normalizedItems := normalizeItems req.items
    let participants := extractParticipants normalizedItems
    let pr := calculatePersonalCharges normalizedItems req.tax req.serviceCharge
      req.totalDiscount participants
    let subtotal := calculateSubtotal normalizedItems
    let total := subtotal + req.tax + req.serviceCharge - req.totalDiscount
    .ok { amount := Round total
          subtotal := Round subtotal
          tax := Round req.tax
          serviceCharge := Round req.serviceCharge
          totalDiscount := Round req.totalDiscount
          perPersonCharges := FormatNameMapKeys pr.1
          perPersonBreakdown := FormatNameMapKeys pr.2 }

/-- A concrete item list used in the C6 counterexample: one 100.00 item
shared by three consumers. -/
def c6items : List Item :=
  [{ description := "x"
     unitPrice := 100
     quantity := 1
     amount := 100
     itemDiscount := 0
     paidBy := "a"
     consumers := ["a", "b", "c"] }]

/-- The per-person breakdown written by the proportional branch of
`calculatePersonalCharges`: stored tax/service/discount are the rounded
proportional shares, but the stored total rounds the sum of the UNROUNDED
shares. -/
def propBD (tax svc disc stot : ℚ) (old : PersonChargeBreakdown) : PersonChargeBreakdown :=
  let proportion := old.subtotal / stot
  { subtotal := old.subtotal
    tax := Round (tax * proportion)
    serviceCharge := Round (svc * proportion)
    discount := Round (disc * proportion)
    total := Round (old.subtotal + tax * proportion + svc * proportion - disc * proportion) }

/-- Every subtotal in a breakdown map is cent-quantized. -/
def AllBDCents (m : BreakdownMap) : Prop := ∀ kv ∈ m, IsCents kv.2.subtotal

theorem roundHalf_intCast (k : ℤ) : roundHalf (k : ℚ) = k := by
  unfold roundHalf
  have hhalf : ⌊(1 : ℚ)/2⌋ = 0 := by norm_num [Int.floor_eq_iff]
  by_cases h : (0 : ℚ) ≤ (k : ℚ)
  · rw [if_pos h, add_comm, Int.floor_add_int, hhalf, zero_add]
  · rw [if_neg h]
    have : -(k : ℚ) + 1/2 = 1/2 + ((-k : ℤ) : ℚ) := by push_cast; ring
    rw [this, Int.floor_add_int, hhalf, zero_add, neg_neg]

theorem isCents_Round (q : ℚ) : IsCents (Round q) := ⟨roundHalf (q * 100), rfl⟩

theorem Round_eq_self {q : ℚ} (h : IsCents q) : Round q = q := by
  obtain ⟨k, rfl⟩ := h
  unfold Round
  have h100 : ((k : ℚ) / 100) * 100 = (k : ℚ) := by field_simp
  rw [h100, roundHalf_intCast]

theorem isCents_zero : IsCents 0 := ⟨0, by norm_num⟩

theorem isCents_add {a b : ℚ} (ha : IsCents a) (hb : IsCents b) : IsCents (a + b) := by
  obtain ⟨k, rfl⟩ := ha; obtain ⟨m, rfl⟩ := hb
  exact ⟨k + m, by push_cast; ring⟩

theorem isCents_neg {a : ℚ} (ha : IsCents a) : IsCents (-a) := by
  obtain ⟨k, rfl⟩ := ha
  exact ⟨-k, by push_cast; ring⟩

theorem isCents_sub {a b : ℚ} (ha : IsCents a) (hb : IsCents b) : IsCents (a - b) := by
  rw [sub_eq_add_neg]; exact isCents_add ha (isCents_neg hb)

theorem isCents_min {a b : ℚ} (ha : IsCents a) (hb : IsCents b) : IsCents (min a b) := by
  rcases min_choice a b with h | h <;> rw [h] <;> assumption

theorem Round_eq_zero_iff {q : ℚ} (h : IsCents q) : Round q = 0 ↔ q = 0 := by
  rw [Round_eq_self h]

@[simp] theorem bal_nil (p : String) : bal [] p = 0 := rfl

@[simp] theorem sumB_nil : sumB [] = 0 := rfl

@[simp] theorem sumB_cons (kv : String × ℚ) (B : Balances) :
    sumB (kv :: B) = kv.2 + sumB B := rfl

theorem sumB_addBal (B : Balances) (p : String) (x : ℚ) :
    sumB (addBal B p x) = sumB B + x := by
  induction B with
  | nil => simp [addBal, sumB]
  | cons kv rest ih =>
    obtain ⟨q, v⟩ := kv
    by_cases h : q = p
    · simp [addBal, h, sumB]; ring
    · simp [addBal, h, sumB_cons, ih]; ring

theorem bal_addBal_self (B : Balances) (p : String) (x : ℚ) :
    bal (addBal B p x) p = bal B p + x := by
  induction B with
  | nil => simp [addBal, bal]
  | cons kv rest ih =>
    obtain ⟨q, v⟩ := kv
    by_cases h : q = p
    · simp [addBal, h, bal]
    · simp [addBal, h, bal, ih]

@[simp] theorem keysAL_nil {α : Type} : keysAL ([] : List (String × α)) = [] := rfl

@[simp] theorem keysAL_cons {α : Type} (kv : String × α) (rest : List (String × α)) :
    keysAL (kv :: rest) = kv.1 :: keysAL rest := rfl

theorem bal_addBal_ne (B : Balances) {p r : String} (x : ℚ) (h : r ≠ p) :
    bal (addBal B p x) r = bal B r := by
  induction B with
  | nil =>
    simp only [addBal, bal]
    rw [if_neg (fun hh => h hh.symm)]
  | cons kv rest ih =>
    obtain ⟨q, v⟩ := kv
    by_cases hq : q = p
    · subst hq
      have hqr : q ≠ r := fun hh => h hh.symm
      simp [addBal, bal, hqr]
    · by_cases hr : q = r
      · subst hr
        simp [addBal, bal, hq]
      · simp [addBal, bal, hq, hr, ih]

theorem mem_keys_addBal {B : Balances} {p r : String} {x : ℚ} :
    r ∈ keysAL (addBal B p x) ↔ r ∈ keysAL B ∨ r = p := by
  induction B with
  | nil => simp [addBal]
  | cons kv rest ih =>
    obtain ⟨q, v⟩ := kv
    by_cases h : q = p <;> simp [addBal, h] at ih ⊢ <;> tauto

theorem nodup_keys_addBal {B : Balances} {p : String} {x : ℚ}
    (h : (keysAL B).Nodup) : (keysAL (addBal B p x)).Nodup := by
  induction B with
  | nil => simp [addBal, keysAL]
  | cons kv rest ih =>
    obtain ⟨q, v⟩ := kv
    simp only [keysAL_cons, List.nodup_cons] at h
    by_cases hq : q = p
    · simp only [addBal, if_pos hq, keysAL_cons, List.nodup_cons]
      exact ⟨h.1, h.2⟩
    · simp only [addBal, if_neg hq, keysAL_cons, List.nodup_cons]
      refine ⟨?_, ih h.2⟩
      intro hmem
      rcases mem_keys_addBal.1 hmem with hm | hm
      · exact h.1 hm
      · exact hq hm

theorem allCents_addBal {B : Balances} {p : String} {x : ℚ}
    (hB : AllCents B) (hx : IsCents x) : AllCents (addBal B p x) := by
  induction B with
  | nil => intro kv hkv; simp [addBal] at hkv; subst hkv; exact hx
  | cons kv rest ih =>
    obtain ⟨q, v⟩ := kv
    have hv : IsCents v := hB (q, v) (by simp)
    have hrest : AllCents rest := fun kv h => hB kv (by simp [h])
    by_cases hq : q = p
    · intro kv hkv
      simp [addBal, hq] at hkv
      rcases hkv with hkv | hkv
      · subst hkv; exact isCents_add hv hx
      · exact hrest kv hkv
    · intro kv hkv
      simp [addBal, hq] at hkv
      rcases hkv with hkv | hkv
      · subst hkv; exact hv
      · exact ih hrest kv hkv

theorem bal_eq_zero_of_not_mem {B : Balances} {p : String} (h : p ∉ keysAL B) :
    bal B p = 0 := by
  induction B with
  | nil => rfl
  | cons kv rest ih =>
    obtain ⟨q, v⟩ := kv
    simp only [keysAL_cons, List.mem_cons, not_or] at h
    have hq : q ≠ p := fun hh => h.1 hh.symm
    simp only [bal, if_neg hq]
    exact ih h.2

theorem bal_of_mem_nodup {B : Balances} {p : String} {v : ℚ}
    (hnd : (keysAL B).Nodup) (h : (p, v) ∈ B) : bal B p = v := by
  induction B with
  | nil => simp at h
  | cons kv rest ih =>
    obtain ⟨q, w⟩ := kv
    simp only [keysAL_cons, List.nodup_cons] at hnd
    rcases List.mem_cons.1 h with h1 | h1
    · obtain ⟨hq, hv⟩ := Prod.mk.inj h1.symm
      simp [bal, hq, hv]
    · have hne : q ≠ p := by
        intro hqp; subst hqp
        exact hnd.1 (by simpa [keysAL] using ⟨v, h1⟩)
      simp only [bal, if_neg hne]
      exact ih hnd.2 h1

theorem mem_of_mem_keys {B : Balances} {p : String} (h : p ∈ keysAL B) :
    (p, bal B p) ∈ B := by
  induction B with
  | nil => simp [keysAL] at h
  | cons kv rest ih =>
    obtain ⟨q, v⟩ := kv
    by_cases hq : q = p
    · subst hq; simp [bal]
    · have h2 : p ∈ keysAL rest := by
        rcases List.mem_cons.1 (by simpa using h) with h1 | h1
        · exact absurd h1.symm hq
        · exact h1
      simp only [bal, if_neg hq]
      exact List.mem_cons.2 (Or.inr (ih h2))

theorem bal_mem_of_ne_zero {B : Balances} {p : String} (h : bal B p ≠ 0) :
    p ∈ keysAL B := by
  by_contra hmem
  exact h (bal_eq_zero_of_not_mem hmem)

theorem foldl_pair_fst {δ : Type} (l : List δ)
    (f : Balances → δ → Balances) (g : Balances → δ → Balances) (a b : Balances) :
    (l.foldl (fun pr c => (f pr.1 c, g pr.2 c)) (a, b)).1 = l.foldl f a := by
  induction l generalizing a b with
  | nil => rfl
  | cons c rest ih => simp [List.foldl_cons, ih]

theorem foldl_pair_snd {δ : Type} (l : List δ)
    (f : Balances → δ → Balances) (g : Balances → δ → Balances) (a b : Balances) :
    (l.foldl (fun pr c => (f pr.1 c, g pr.2 c)) (a, b)).2 = l.foldl g b := by
  induction l generalizing a b with
  | nil => rfl
  | cons c rest ih => simp [List.foldl_cons, ih]

theorem sumB_addLoop (l : List String) (x : ℚ) (B : Balances) :
    sumB (l.foldl (fun b p => addBal b p x) B) = sumB B + (l.length : ℚ) * x := by
  induction l generalizing B with
  | nil => simp
  | cons p rest ih =>
    simp only [List.foldl_cons, ih, sumB_addBal, List.length_cons]
    push_cast
    ring

theorem allCents_addLoop (l : List String) {x : ℚ} {B : Balances}
    (hB : AllCents B) (hx : IsCents x) :
    AllCents (l.foldl (fun b p => addBal b p x) B) := by
  induction l generalizing B with
  | nil => exact hB
  | cons p rest ih => exact ih (allCents_addBal hB hx)

theorem itemStep_fst (st : Balances × Balances × ℚ) (it : Item) :
    (itemStep st it).1 =
      it.consumers.foldl
        (fun b c => addBal b c (-(Round (it.amount / (it.consumers.length : ℚ)))))
        (addBal st.1 it.paidBy it.amount) := by
  dsimp only [itemStep]
  exact foldl_pair_fst it.consumers
    (fun b c => addBal b c (-Round (it.amount / (it.consumers.length : ℚ))))
    (fun t c => addBal t c (Round (it.amount / (it.consumers.length : ℚ))))
    (addBal st.1 it.paidBy it.amount) st.2.1

theorem itemStep_snd (st : Balances × Balances × ℚ) (it : Item) :
    (itemStep st it).2.1 =
      it.consumers.foldl
        (fun t c => addBal t c (Round (it.amount / (it.consumers.length : ℚ)))) st.2.1 := by
  dsimp only [itemStep]
  exact foldl_pair_snd it.consumers
    (fun b c => addBal b c (-Round (it.amount / (it.consumers.length : ℚ))))
    (fun t c => addBal t c (Round (it.amount / (it.consumers.length : ℚ))))
    (addBal st.1 it.paidBy it.amount) st.2.1

theorem itemStep_thd (st : Balances × Balances × ℚ) (it : Item) :
    (itemStep st it).2.2 = st.2.2 + it.amount := rfl

theorem itemStep_sum (st : Balances × Balances × ℚ) (it : Item) :
    sumB (itemStep st it).1 = sumB st.1 + itemNet it := by
  rw [itemStep_fst, sumB_addLoop, sumB_addBal, itemNet]
  ring

theorem itemStep_cents {st : Balances × Balances × ℚ} (it : Item)
    (hB : AllCents st.1) (ha : IsCents it.amount) : AllCents (itemStep st it).1 := by
  rw [itemStep_fst]
  exact allCents_addLoop _ (allCents_addBal hB ha)
    (isCents_neg (isCents_Round _))

theorem itemsLoop_sum (items : List Item) (st : Balances × Balances × ℚ) :
    sumB (items.foldl itemStep st).1 = sumB st.1 + (items.map itemNet).sum := by
  induction items generalizing st with
  | nil => simp
  | cons it rest ih =>
    simp only [List.foldl_cons, List.map_cons, List.sum_cons, ih, itemStep_sum]
    ring

theorem itemsLoop_cents (items : List Item) (st : Balances × Balances × ℚ)
    (hB : AllCents st.1) (ha : ∀ it ∈ items, IsCents it.amount) :
    AllCents (items.foldl itemStep st).1 := by
  induction items generalizing st with
  | nil => exact hB
  | cons it rest ih =>
    simp only [List.foldl_cons]
    exact ih _ (itemStep_cents it hB (ha it (by simp)))
      (fun it2 h2 => ha it2 (by simp [h2]))

theorem itemsLoop_thd (items : List Item) (st : Balances × Balances × ℚ) :
    (items.foldl itemStep st).2.2 = st.2.2 + (items.map Item.amount).sum := by
  induction items generalizing st with
  | nil => simp
  | cons it rest ih =>
    simp only [List.foldl_cons, List.map_cons, List.sum_cons, ih, itemStep_thd]
    ring

theorem processEqual_sum (e : Expense) (B : Balances) :
    sumB (processEqualSplitExpense e B) =
      sumB B + e.amount -
        (e.splitAmong.length : ℚ) * Round (e.amount / (e.splitAmong.length : ℚ)) := by
  unfold processEqualSplitExpense
  rw [sumB_addLoop, sumB_addBal]
  ring

theorem processEqual_cents (e : Expense) (B : Balances)
    (hB : AllCents B) (ha : IsCents e.amount) :
    AllCents (processEqualSplitExpense e B) := by
  unfold processEqualSplitExpense
  exact allCents_addLoop _ (allCents_addBal hB ha) (isCents_neg (isCents_Round _))

theorem itemNet_eq_zero {a : ℚ} {n : ℕ} (h : DivisibleAmong a n) :
    a - (n : ℚ) * Round (a / (n : ℚ)) = 0 := by
  obtain ⟨m, rfl⟩ := h
  rcases Nat.eq_zero_or_pos n with hn | hn
  · subst hn
    simp
  · have hne : (n : ℚ) ≠ 0 := by positivity
    have hdiv : ((m : ℚ) * (n : ℚ)) / 100 / (n : ℚ) = (m : ℚ) / 100 := by
      field_simp
      ring
    rw [hdiv, Round_eq_self ⟨m, rfl⟩]
    field_simp
    ring

theorem isCents_of_divisible {a : ℚ} {n : ℕ} (h : DivisibleAmong a n) : IsCents a := by
  obtain ⟨m, rfl⟩ := h
  exact ⟨m * n, by push_cast; ring⟩

theorem aggStep_exact (e : Expense) (B : Balances) (he : ExactExpense e)
    (hB : AllCents B) :
    sumB (aggStep B e) = sumB B ∧ AllCents (aggStep B e) := by
  obtain ⟨htax, hsvc, hdisc, heq, hit⟩ := he
  unfold aggStep
  cases hsplit : e.splitType with
  | equal =>
    have hd := heq hsplit
    constructor
    · rw [processEqual_sum]
      have := itemNet_eq_zero hd
      linarith
    · exact processEqual_cents e B hB (isCents_of_divisible hd)
  | items =>
    have hd := hit hsplit
    have hE : e.tax + e.serviceCharge - e.totalDiscount = 0 := by
      rw [htax, hsvc, hdisc]; ring
    unfold processItemSplitExpense
    rw [hE]
    simp only [ne_eq, not_true_eq_false, false_and, if_false]
    constructor
    · rw [processItemsLoop, itemsLoop_sum]
      have hz : (e.items.map itemNet).sum = 0 := by
        apply List.sum_eq_zero
        intro x hx
        rcases List.mem_map.1 hx with ⟨it, hmem, rfl⟩
        exact itemNet_eq_zero (hd it hmem)
      simp [hz, sumB]
    · rw [processItemsLoop]
      exact itemsLoop_cents _ _ hB (fun it h => isCents_of_divisible (hd it h))

theorem aggLoop_exact (es : List Expense) (B : Balances)
    (h : ∀ e ∈ es, ExactExpense e) (hB : AllCents B) :
    sumB (es.foldl aggStep B) = sumB B ∧ AllCents (es.foldl aggStep B) := by
  induction es generalizing B with
  | nil => exact ⟨rfl, hB⟩
  | cons e rest ih =>
    simp only [List.foldl_cons]
    have he := h e (by simp)
    have hstep := aggStep_exact e B he hB
    have hrest := ih (aggStep B e) (fun e2 h2 => h e2 (by simp [h2])) hstep.2
    exact ⟨hrest.1.trans hstep.1, hrest.2⟩

theorem sumB_roundAll (B : Balances) (h : AllCents B) :
    sumB (B.map (fun kv => (kv.1, Round kv.2))) = sumB B := by
  induction B with
  | nil => rfl
  | cons kv rest ih =>
    simp only [List.map_cons, sumB_cons]
    rw [Round_eq_self (h kv (by simp)), ih (fun kv2 h2 => h kv2 (by simp [h2]))]

/-- C2: with no tax/service/discount and purely integral cent amounts exactly
divisible by the participant/consumer counts, the balances produced by
`calculateBalances` sum to exactly zero. -/
theorem c2_zero_sum (es : List Expense) (h : ∀ e ∈ es, ExactExpense e) :
    sumB (calculateBalances es) = 0 := by
  unfold calculateBalances
  have hmain := aggLoop_exact es [] h (by intro kv hkv; simp at hkv)
  rw [sumB_roundAll _ hmain.2, hmain.1]
  rfl

theorem extraFold_sum (E T : ℚ) (totals : Balances) (st : Balances × ℚ × String) :
    sumB (totals.foldl (extraStep E T) st).1 + (totals.foldl (extraStep E T) st).2.1 =
      sumB st.1 + st.2.1 := by
  induction totals generalizing st with
  | nil => rfl
  | cons kv rest ih =>
    simp only [List.foldl_cons]
    rw [ih]
    dsimp only [extraStep]
    rw [sumB_addBal]
    ring

theorem extraFold_alloc_cents (E T : ℚ) (totals : Balances) (st : Balances × ℚ × String)
    (h : IsCents st.2.1) : IsCents (totals.foldl (extraStep E T) st).2.1 := by
  induction totals generalizing st with
  | nil => exact h
  | cons kv rest ih =>
    simp only [List.foldl_cons]
    exact ih _ (isCents_add h (isCents_Round _))

theorem extraFold_last_mem (E T : ℚ) (totals : Balances) (st : Balances × ℚ × String)
    (h : totals ≠ []) : (totals.foldl (extraStep E T) st).2.2 ∈ keysAL totals := by
  induction totals generalizing st with
  | nil => exact absurd rfl h
  | cons kv rest ih =>
    simp only [List.foldl_cons]
    rcases List.eq_nil_or_concat rest with hr | _
    · subst hr
      simp [extraStep]
    · rcases hrest : rest with _ | ⟨kv2, rest2⟩
      · subst hrest
        simp [extraStep]
      · have := ih (extraStep E T st kv) (by simp [hrest])
        rw [hrest] at this
        simp only [keysAL_cons, List.mem_cons]
        right
        simpa [hrest] using this

/-- Core of C4: over any association list of person item totals with at least
one entry and no blank keys, the proportional loop plus the rounding
adjustment debits exactly `E` in total. -/
theorem distributeExtra_sum (E T : ℚ) (totals B : Balances)
    (hE : IsCents E) (htot : totals ≠ []) (hkeys : ∀ p ∈ keysAL totals, p ≠ "") :
    sumB (distributeExtraCharges E T totals B) = sumB B - E := by
  unfold distributeExtraCharges extraLoop
  have hsum := extraFold_sum E T totals (B, (0 : ℚ), "")
  dsimp only at hsum
  have hac : IsCents (totals.foldl (extraStep E T) (B, (0 : ℚ), "")).2.1 :=
    extraFold_alloc_cents E T totals _ isCents_zero
  have hdiff : Round (E - (totals.foldl (extraStep E T) (B, (0 : ℚ), "")).2.1) =
      E - (totals.foldl (extraStep E T) (B, (0 : ℚ), "")).2.1 :=
    Round_eq_self (isCents_sub hE hac)
  by_cases hz : Round (E - (totals.foldl (extraStep E T) (B, (0 : ℚ), "")).2.1) = 0
  · have hEalloc : E = (totals.foldl (extraStep E T) (B, (0 : ℚ), "")).2.1 := by
      have h0 : E - (totals.foldl (extraStep E T) (B, (0 : ℚ), "")).2.1 = 0 := by
        rw [← hdiff]; exact hz
      linarith [h0]
    simp only [hz, ne_eq, not_true_eq_false, false_and, if_false]
    linarith [hsum, hEalloc]
  · have hlast : (totals.foldl (extraStep E T) (B, (0 : ℚ), "")).2.2 ≠ "" :=
      hkeys _ (extraFold_last_mem E T totals _ htot)
    simp only [hz, hlast, ne_eq, not_false_eq_true, and_self, if_true]
    rw [sumB_addBal, hdiff]
    linarith [hsum]

theorem mem_keys_addLoop (l : List String) (x : ℚ) (t0 : Balances) (r : String) :
    r ∈ keysAL (l.foldl (fun t c => addBal t c x) t0) ↔ r ∈ keysAL t0 ∨ r ∈ l := by
  induction l generalizing t0 with
  | nil => simp
  | cons c rest ih =>
    simp only [List.foldl_cons, ih, mem_keys_addBal, List.mem_cons]
    tauto

theorem keys_itemsLoop_totals (items : List Item) (st : Balances × Balances × ℚ)
    (r : String) :
    r ∈ keysAL (items.foldl itemStep st).2.1 ↔
      r ∈ keysAL st.2.1 ∨ ∃ it ∈ items, r ∈ it.consumers := by
  induction items generalizing st with
  | nil => simp
  | cons it rest ih =>
    simp only [List.foldl_cons, ih, itemStep_snd, mem_keys_addLoop, List.mem_cons]
    constructor
    · rintro ((h | h) | h)
      · exact Or.inl h
      · exact Or.inr ⟨it, Or.inl rfl, h⟩
      · rcases h with ⟨it2, h2, h3⟩
        exact Or.inr ⟨it2, Or.inr h2, h3⟩
    · rintro (h | ⟨it2, (rfl | h2), h3⟩)
      · exact Or.inl (Or.inl h)
      · exact Or.inl (Or.inr h3)
      · exact Or.inr ⟨it2, h2, h3⟩

theorem itemsLoop_passenger (items : List Item) (B B' : Balances) (t : Balances) (T : ℚ) :
    (items.foldl itemStep (B, t, T)).2 = (items.foldl itemStep (B', t, T)).2 := by
  induction items generalizing B B' t T with
  | nil => rfl
  | cons it rest ih =>
    simp only [List.foldl_cons]
    have h1 : (itemStep (B, t, T) it).2.1 = (itemStep (B', t, T) it).2.1 := by
      rw [itemStep_snd, itemStep_snd]
    have h2 : (itemStep (B, t, T) it).2.2 = (itemStep (B', t, T) it).2.2 := by
      rw [itemStep_thd, itemStep_thd]
    calc (List.foldl itemStep (itemStep (B, t, T) it) rest).2
        = (List.foldl itemStep ((itemStep (B, t, T) it).1, (itemStep (B, t, T) it).2.1,
            (itemStep (B, t, T) it).2.2) rest).2 := rfl
      _ = (List.foldl itemStep ((itemStep (B', t, T) it).1, (itemStep (B, t, T) it).2.1,
            (itemStep (B, t, T) it).2.2) rest).2 := ih ..
      _ = (List.foldl itemStep (itemStep (B', t, T) it) rest).2 := by rw [h1, h2]

theorem processItemsLoop_totals (items : List Item) (B : Balances) :
    (processItemsLoop items B).2 = (personTotalsOf items, totalItemAmountOf items) := by
  unfold processItemsLoop personTotalsOf totalItemAmountOf processItemsLoop
  rw [itemsLoop_passenger items B []]

theorem totalItemAmountOf_eq (items : List Item) :
    totalItemAmountOf items = (items.map Item.amount).sum := by
  unfold totalItemAmountOf processItemsLoop
  rw [itemsLoop_thd]
  simp

theorem mem_keys_personTotals (items : List Item) (r : String) :
    r ∈ keysAL (personTotalsOf items) ↔ ∃ it ∈ items, r ∈ it.consumers := by
  unfold personTotalsOf processItemsLoop
  rw [keys_itemsLoop_totals]
  simp

/-- C4: for an itemized expense with cent-quantized tax/service/discount and
item amounts, nonzero extra charges and positive total item amount (items
having non-empty, non-blank consumer lists), the extra-charge distribution of
`processItemSplitExpense` — the proportional debits plus the
rounding-difference adjustment on the last person processed — debits exactly
the extra charges in total. -/
theorem c4_extra_total (e : Expense) (B : Balances)
    (htax : IsCents e.tax) (hsvc : IsCents e.serviceCharge)
    (hdisc : IsCents e.totalDiscount)
    (hamt : ∀ it ∈ e.items, IsCents it.amount)
    (hE : e.tax + e.serviceCharge - e.totalDiscount ≠ 0)
    (hT : 0 < totalItemAmountOf e.items)
    (hcons : ∀ it ∈ e.items, it.consumers ≠ [] ∧ ∀ c ∈ it.consumers, c ≠ "") :
    sumB (distributeExtraCharges (e.tax + e.serviceCharge - e.totalDiscount)
        (totalItemAmountOf e.items) (personTotalsOf e.items) B) =
      sumB B - (e.tax + e.serviceCharge - e.totalDiscount) := by
  have hne : e.items ≠ [] := by
    intro hnil
    rw [totalItemAmountOf_eq, hnil] at hT
    simp at hT
  obtain ⟨it0, rest0, hitems⟩ := List.exists_cons_of_ne_nil hne
  have hc0 := hcons it0 (by rw [hitems]; simp)
  obtain ⟨c0, crest, hc0eq⟩ := List.exists_cons_of_ne_nil hc0.1
  have hc0mem : c0 ∈ keysAL (personTotalsOf e.items) := by
    rw [mem_keys_personTotals]
    exact ⟨it0, by rw [hitems]; simp, by rw [hc0eq]; simp⟩
  have htotne : personTotalsOf e.items ≠ [] := by
    intro hnil
    rw [hnil] at hc0mem
    simp [keysAL] at hc0mem
  apply distributeExtra_sum
  · exact isCents_sub (isCents_add htax hsvc) hdisc
  · exact htotne
  · intro p hp
    rw [mem_keys_personTotals] at hp
    obtain ⟨it, hit, hcp⟩ := hp
    exact (hcons it hit).2 p hcp

theorem maxVal_init_le (l : Balances) (h : ℚ) : h ≤ maxVal l h := by
  induction l generalizing h with
  | nil => exact le_refl h
  | cons kv rest ih =>
    calc h ≤ max h kv.2 := le_max_left ..
      _ ≤ maxVal rest (max h kv.2) := ih ..
      _ = maxVal (kv :: rest) h := rfl

theorem maxVal_mem_le (l : Balances) (h : ℚ) (kv : String × ℚ) (hmem : kv ∈ l) :
    kv.2 ≤ maxVal l h := by
  induction l generalizing h with
  | nil => simp at hmem
  | cons kv2 rest ih =>
    rcases List.mem_cons.1 hmem with rfl | hmem2
    · calc kv.2 ≤ max h kv.2 := le_max_right ..
        _ ≤ maxVal rest (max h kv.2) := maxVal_init_le ..
        _ = maxVal (kv :: rest) h := rfl
    · exact ih (max h kv2.2) hmem2

theorem bestPayer_stay (l : Balances) (acc : String × ℚ)
    (h : ∀ kv ∈ l, kv.2 ≤ acc.2) : bestPayer l acc = acc := by
  induction l with
  | nil => rfl
  | cons kv rest ih =>
    have hkv : ¬ kv.2 > acc.2 := not_lt_of_le (h kv (by simp))
    unfold bestPayer at ih ⊢
    simp only [List.foldl_cons, if_neg hkv]
    exact ih (fun kv2 h2 => h kv2 (by simp [h2]))

theorem bestPayer_find (l : Balances) (acc : String × ℚ)
    (hlt : acc.2 < maxVal l acc.2) :
    l.find? (fun kv => decide (kv.2 = maxVal l acc.2)) = some (bestPayer l acc) ∧
      (bestPayer l acc).2 = maxVal l acc.2 := by
  induction l generalizing acc with
  | nil => exact absurd hlt (lt_irrefl acc.2)
  | cons kv rest ih =>
    have hM : maxVal (kv :: rest) acc.2 = maxVal rest (max acc.2 kv.2) := rfl
    by_cases hv : kv.2 = maxVal (kv :: rest) acc.2
    · have hgt : kv.2 > acc.2 := hv ▸ hlt
      have hbest : bestPayer (kv :: rest) acc = (kv.1, kv.2) := by
        unfold bestPayer
        simp only [List.foldl_cons, if_pos hgt]
        exact bestPayer_stay rest (kv.1, kv.2)
          (fun kv2 h2 => by
            have := maxVal_mem_le rest (max acc.2 kv.2) kv2 h2
            rw [← hM, ← hv] at this
            exact this)
      refine ⟨?_, by rw [hbest, ← hv]⟩
      rw [List.find?_cons_of_pos _ (by simp [hv]), hbest]
    · have hkv_le : kv.2 ≤ maxVal (kv :: rest) acc.2 :=
        maxVal_mem_le (kv :: rest) acc.2 kv (by simp)
      have hkv_lt : kv.2 < maxVal (kv :: rest) acc.2 := lt_of_le_of_ne hkv_le hv
      rw [List.find?_cons_of_neg _ (by simp [hv])]
      by_cases hgt : kv.2 > acc.2
      · have hmax : max acc.2 kv.2 = kv.2 := max_eq_right (le_of_lt hgt)
        have hM2 : maxVal (kv :: rest) acc.2 = maxVal rest kv.2 := by rw [hM, hmax]
        have hbest : bestPayer (kv :: rest) acc = bestPayer rest (kv.1, kv.2) := by
          unfold bestPayer
          simp only [List.foldl_cons, if_pos hgt]
        have := ih (kv.1, kv.2) (by show kv.2 < maxVal rest kv.2; rw [← hM2]; exact hkv_lt)
        rw [hbest, hM2]
        exact ⟨this.1, this.2⟩
      · have hmax : max acc.2 kv.2 = acc.2 := max_eq_left (not_lt.1 hgt)
        have hM2 : maxVal (kv :: rest) acc.2 = maxVal rest acc.2 := by rw [hM, hmax]
        have hbest : bestPayer (kv :: rest) acc = bestPayer rest acc := by
          unfold bestPayer
          simp only [List.foldl_cons, if_neg hgt]
        have := ih acc (by rw [← hM2]; exact hlt)
        rw [hbest, hM2]
        exact ⟨this.1, this.2⟩

theorem sumB_payerFold (items : List Item) (m : Balances) :
    sumB (items.foldl (fun m it => addBal m it.paidBy it.amount) m) =
      sumB m + (items.map Item.amount).sum := by
  induction items generalizing m with
  | nil => simp
  | cons it rest ih =>
    simp only [List.foldl_cons, ih, sumB_addBal, List.map_cons, List.sum_cons]
    ring

theorem sumB_payerCountsOf (items : List Item) :
    sumB (payerCountsOf items) = (items.map Item.amount).sum := by
  unfold payerCountsOf
  rw [sumB_payerFold]
  simp

theorem mem_keys_payerFold (items : List Item) (m : Balances) (r : String) :
    r ∈ keysAL (items.foldl (fun m it => addBal m it.paidBy it.amount) m) ↔
      r ∈ keysAL m ∨ ∃ it ∈ items, r = it.paidBy := by
  induction items generalizing m with
  | nil => simp
  | cons it rest ih =>
    simp only [List.foldl_cons, ih, mem_keys_addBal, List.mem_cons]
    constructor
    · rintro ((h | h) | h)
      · exact Or.inl h
      · exact Or.inr ⟨it, Or.inl rfl, h⟩
      · rcases h with ⟨it2, h2, h3⟩
        exact Or.inr ⟨it2, Or.inr h2, h3⟩
    · rintro (h | ⟨it2, (rfl | h2), h3⟩)
      · exact Or.inl (Or.inl h)
      · exact Or.inl (Or.inr h3)
      · exact Or.inr ⟨it2, h2, h3⟩

theorem sumB_nonpos (l : Balances) (h : ∀ kv ∈ l, kv.2 ≤ 0) : sumB l ≤ 0 := by
  induction l with
  | nil => simp
  | cons kv rest ih =>
    have h1 : kv.2 ≤ 0 := h kv (by simp)
    have h2 : sumB rest ≤ 0 := ih (fun kv2 h2 => h kv2 (by simp [h2]))
    simp only [sumB_cons]
    linarith

theorem exists_pos_of_sumB_pos (l : Balances) (h : 0 < sumB l) :
    ∃ kv ∈ l, 0 < kv.2 := by
  by_contra hcon
  push_neg at hcon
  have := sumB_nonpos l hcon
  linarith

/-- C5: with non-blank item payers and positive total item amount, the person
selected by `findPrimaryPayer` is exactly the first entry of the payer-totals
map achieving the maximal cumulative paid amount; and with no items at all it
falls back to the expense's recorded `paidBy`. -/
theorem c5_primary_payer (e : Expense)
    (hnb : ∀ it ∈ e.items, it.paidBy ≠ "") :
    (0 < totalItemAmountOf e.items →
      (payerCountsOf e.items).find?
          (fun kv => decide (kv.2 = maxVal (payerCountsOf e.items) 0)) =
        some (findPrimaryPayer e, maxVal (payerCountsOf e.items) 0)) ∧
    (e.items = [] → findPrimaryPayer e = e.paidBy) := by
  constructor
  · intro hT
    have hsum : 0 < sumB (payerCountsOf e.items) := by
      rw [sumB_payerCountsOf, ← totalItemAmountOf_eq]
      exact hT
    obtain ⟨kv, hmem, hpos⟩ := exists_pos_of_sumB_pos _ hsum
    have hMpos : (0 : ℚ) < maxVal (payerCountsOf e.items) 0 :=
      lt_of_lt_of_le hpos (maxVal_mem_le _ 0 kv hmem)
    have hfind := bestPayer_find (payerCountsOf e.items) ("", 0) hMpos
    dsimp only at hfind
    have hbmem : bestPayer (payerCountsOf e.items) ("", 0) ∈ payerCountsOf e.items :=
      List.mem_of_find?_eq_some hfind.1
    have hbne : (bestPayer (payerCountsOf e.items) ("", 0)).1 ≠ "" := by
      have hk : (bestPayer (payerCountsOf e.items) ("", 0)).1 ∈
          keysAL (payerCountsOf e.items) := List.mem_map_of_mem Prod.fst hbmem
      rw [show keysAL (payerCountsOf e.items) =
          keysAL (e.items.foldl (fun m it => addBal m it.paidBy it.amount) []) from rfl] at hk
      rw [mem_keys_payerFold] at hk
      rcases hk with hk | ⟨it, hit, heq⟩
      · simp [keysAL] at hk
      · rw [heq]
        exact hnb it hit
    have hfp : findPrimaryPayer e = (bestPayer (payerCountsOf e.items) ("", 0)).1 := by
      unfold findPrimaryPayer
      simp only [if_neg hbne]
    rw [hfind.1, hfp, ← hfind.2]
  · intro hnil
    unfold findPrimaryPayer payerCountsOf bestPayer
    rw [hnil]
    simp

/-- Witness for C4 at a concrete expense: one 1.00 item shared by three
people with 0.10 tax; the three rounded shares 0.03 plus the 0.01 adjustment
debit exactly 0.10. -/
theorem c4_extra_total_witness :
    sumB (distributeExtraCharges
        ((1:ℚ)/10 + 0 - 0)
        (totalItemAmountOf [{ description := "x"
                              unitPrice := 1
                              quantity := 1
                              amount := 1
                              itemDiscount := 0
                              paidBy := "a"
                              consumers := ["a", "b", "c"] }])
        (personTotalsOf [{ description := "x"
                           unitPrice := 1
                           quantity := 1
                           amount := 1
                           itemDiscount := 0
                           paidBy := "a"
                           consumers := ["a", "b", "c"] }])
        []) = sumB [] - ((1:ℚ)/10 + 0 - 0) := by
  apply c4_extra_total
      { amount := 11/10
        subtotal := 1
        tax := 1/10
        serviceCharge := 0
        totalDiscount := 0
        paidBy := "a"
        splitType := .items
        splitAmong := []
        items := [{ description := "x"
                    unitPrice := 1
                    quantity := 1
                    amount := 1
                    itemDiscount := 0
                    paidBy := "a"
                    consumers := ["a", "b", "c"] }] }
  · exact ⟨10, by norm_num⟩
  · exact ⟨0, by norm_num⟩
  · exact ⟨0, by norm_num⟩
  · intro it hit
    simp only [List.mem_singleton] at hit
    subst hit
    exact ⟨100, by norm_num⟩
  · norm_num
  · rw [totalItemAmountOf_eq]
    norm_num
  · intro it hit
    simp only [List.mem_singleton] at hit
    subst hit
    refine ⟨by simp, ?_⟩
    intro c hc
    simp only [List.mem_cons, List.not_mem_nil, or_false] at hc
    rcases hc with rfl | rfl | rfl <;> decide

/-- Witness for C5 at a concrete expense: payer "y" paid 2.00 of the 3.00
total and is selected as primary payer. -/
theorem c5_primary_payer_witness :
    (payerCountsOf [{ description := "i1"
                      unitPrice := 1
                      quantity := 1
                      amount := 1
                      itemDiscount := 0
                      paidBy := "x"
                      consumers := ["x"] },
                    { description := "i2"
                      unitPrice := 2
                      quantity := 1
                      amount := 2
                      itemDiscount := 0
                      paidBy := "y"
                      consumers := ["y"] }]).find?
        (fun kv => decide (kv.2 = maxVal (payerCountsOf
          [{ description := "i1"
             unitPrice := 1
             quantity := 1
             amount := 1
             itemDiscount := 0
             paidBy := "x"
             consumers := ["x"] },
           { description := "i2"
             unitPrice := 2
             quantity := 1
             amount := 2
             itemDiscount := 0
             paidBy := "y"
             consumers := ["y"] }]) 0)) =
      some (findPrimaryPayer
        { amount := 3
          subtotal := 3
          tax := 0
          serviceCharge := 0
          totalDiscount := 0
          paidBy := "x"
          splitType := .items
          splitAmong := []
          items := [{ description := "i1"
                      unitPrice := 1
                      quantity := 1
                      amount := 1
                      itemDiscount := 0
                      paidBy := "x"
                      consumers := ["x"] },
                    { description := "i2"
                      unitPrice := 2
                      quantity := 1
                      amount := 2
                      itemDiscount := 0
                      paidBy := "y"
                      consumers := ["y"] }] },
        maxVal (payerCountsOf
          [{ description := "i1"
             unitPrice := 1
             quantity := 1
             amount := 1
             itemDiscount := 0
             paidBy := "x"
             consumers := ["x"] },
           { description := "i2"
             unitPrice := 2
             quantity := 1
             amount := 2
             itemDiscount := 0
             paidBy := "y"
             consumers := ["y"] }]) 0) := by
  exact (c5_primary_payer
    { amount := 3
      subtotal := 3
      tax := 0
      serviceCharge := 0
      totalDiscount := 0
      paidBy := "x"
      splitType := .items
      splitAmong := []
      items := [{ description := "i1"
                  unitPrice := 1
                  quantity := 1
                  amount := 1
                  itemDiscount := 0
                  paidBy := "x"
                  consumers := ["x"] },
                { description := "i2"
                  unitPrice := 2
                  quantity := 1
                  amount := 2
                  itemDiscount := 0
                  paidBy := "y"
                  consumers := ["y"] }] }
    (by
      intro it hit
      simp only [List.mem_cons, List.not_mem_nil, or_false] at hit
      rcases hit with rfl | rfl <;> decide)).1
    (by rw [totalItemAmountOf_eq]; norm_num)

/-- Witness for C2 at a concrete expense list: an equal split of 90 among
three people and an itemized expense of 100 split between two. -/
theorem c2_zero_sum_witness :
    sumB (calculateBalances
      [{ amount := 90
         subtotal := 90
         tax := 0
         serviceCharge := 0
         totalDiscount := 0
         paidBy := "a"
         splitType := .equal
         splitAmong := ["a", "b", "c"]
         items := [] },
       { amount := 100
         subtotal := 100
         tax := 0
         serviceCharge := 0
         totalDiscount := 0
         paidBy := "b"
         splitType := .items
         splitAmong := []
         items := [{ description := "x"
                     unitPrice := 100
                     quantity := 1
                     amount := 100
                     itemDiscount := 0
                     paidBy := "b"
                     consumers := ["a", "b"] }] }]) = 0 := by
  apply c2_zero_sum
  intro e he
  simp only [List.mem_cons, List.not_mem_nil, or_false] at he
  rcases he with rfl | rfl
  · refine ⟨rfl, rfl, rfl, fun _ => ⟨3000, by norm_num⟩, fun hs => by simp at hs⟩
  · refine ⟨rfl, rfl, rfl, fun hs => by simp at hs, fun _ => ?_⟩
    intro it hit
    simp only [List.mem_singleton] at hit
    subst hit
    exact ⟨5000, by norm_num⟩

theorem sortPass_perm (c : PersonBalance) (l : List PersonBalance) :
    ((sortPass c l).1 :: (sortPass c l).2).Perm (c :: l) := by
  induction l generalizing c with
  | nil => exact List.Perm.refl _
  | cons x xs ih =>
    by_cases h : c.balance < x.balance
    · simp only [sortPass, if_pos h]
      exact (List.Perm.swap c (sortPass x xs).1 (sortPass x xs).2).trans ((ih x).cons c)
    · simp only [sortPass, if_neg h]
      exact ((List.Perm.swap x (sortPass c xs).1 (sortPass c xs).2).trans
        ((ih c).cons x)).trans (List.Perm.swap c x xs)

theorem sortFuel_perm (f : ℕ) (l : List PersonBalance) (h : l.length ≤ f) :
    (sortFuel f l).Perm l := by
  induction f generalizing l with
  | zero =>
    rw [List.length_eq_zero.1 (Nat.le_zero.1 h)]
    exact List.Perm.refl _
  | succ f ih =>
    cases l with
    | nil => exact List.Perm.refl _
    | cons x xs =>
      simp only [sortFuel]
      have hp := sortPass_perm x xs
      have hlen : (sortPass x xs).2.length ≤ f := by
        have := hp.length_eq
        simp only [List.length_cons] at this h
        omega
      exact ((ih _ hlen).cons _).trans hp

theorem sortByBalance_perm (l : List PersonBalance) : (sortByBalance l).Perm l :=
  sortFuel_perm l.length l (le_refl _)

theorem gsFuel_mem (fuel : ℕ) :
    ∀ (cs ds : List PersonBalance) (s : Settlement), s ∈ gsFuel fuel cs ds →
      s.toPerson ∈ personsPB cs ∧ s.fromPerson ∈ personsPB ds ∧ 0 < s.amount := by
  induction fuel with
  | zero =>
    intro cs ds s hs
    simp [gsFuel] at hs
  | succ f ih =>
    intro cs ds s hs
    match cs, ds with
    | [], _ => simp [gsFuel] at hs
    | _ :: _, [] => simp [gsFuel] at hs
    | c :: cs, d :: ds =>
      rw [gsFuel] at hs
      dsimp only at hs
      have hsub : ∀ (cs' : List PersonBalance) (ds' : List PersonBalance),
          (personsPB cs' ⊆ personsPB (c :: cs)) → (personsPB ds' ⊆ personsPB (d :: ds)) →
          s ∈ gsFuel f cs' ds' →
          s.toPerson ∈ personsPB (c :: cs) ∧ s.fromPerson ∈ personsPB (d :: ds) ∧
            0 < s.amount := by
        intro cs' ds' hc hd hmem
        obtain ⟨h1, h2, h3⟩ := ih cs' ds' s hmem
        exact ⟨hc h1, hd h2, h3⟩
      have hcs_sub : personsPB cs ⊆ personsPB (c :: cs) := by
        intro r hr; simp [personsPB] at hr ⊢; tauto
      have hds_sub : personsPB ds ⊆ personsPB (d :: ds) := by
        intro r hr; simp [personsPB] at hr ⊢; tauto
      have hc2_sub : personsPB (⟨c.person, c.balance - Round (min c.balance d.balance)⟩ :: cs)
          ⊆ personsPB (c :: cs) := by
        intro r hr; simp [personsPB] at hr ⊢; tauto
      have hd2_sub : personsPB (⟨d.person, d.balance - Round (min c.balance d.balance)⟩ :: ds)
          ⊆ personsPB (d :: ds) := by
        intro r hr; simp [personsPB] at hr ⊢; tauto
      by_cases hamt : Round (min c.balance d.balance) > 0
      · rw [if_pos hamt] at hs
        rcases List.mem_cons.1 hs with rfl | hs2
        · refine ⟨?_, ?_, hamt⟩ <;> simp [personsPB]
        · split at hs2 <;> split at hs2
          · exact hsub _ _ hcs_sub hds_sub hs2
          · exact hsub _ _ hcs_sub hd2_sub hs2
          · exact hsub _ _ hc2_sub hds_sub hs2
          · exact hsub _ _ hc2_sub hd2_sub hs2
      · rw [if_neg hamt] at hs
        split at hs <;> split at hs
        · exact hsub _ _ hcs_sub hds_sub hs
        · exact hsub _ _ hcs_sub hd2_sub hs
        · exact hsub _ _ hc2_sub hds_sub hs
        · exact hsub _ _ hc2_sub hd2_sub hs

theorem mem_persons_extractCreditors {B : Balances} {p : String} :
    p ∈ personsPB (extractCreditors B) ↔ ∃ kv ∈ B, 0 < kv.2 ∧ kv.1 = p := by
  unfold personsPB extractCreditors
  rw [List.mem_map]
  constructor
  · rintro ⟨pb, hmem, rfl⟩
    rcases List.mem_filterMap.1 hmem with ⟨kv, hkv, hf⟩
    by_cases hpos : kv.2 > 0
    · rw [if_pos hpos] at hf
      cases hf
      exact ⟨kv, hkv, hpos, rfl⟩
    · rw [if_neg hpos] at hf
      cases hf
  · rintro ⟨kv, hkv, hpos, rfl⟩
    exact ⟨⟨kv.1, kv.2⟩, List.mem_filterMap.2 ⟨kv, hkv, by rw [if_pos hpos]⟩, rfl⟩

theorem mem_persons_extractDebtors {B : Balances} {p : String} :
    p ∈ personsPB (extractDebtors B) ↔ ∃ kv ∈ B, kv.2 < 0 ∧ kv.1 = p := by
  unfold personsPB extractDebtors
  rw [List.mem_map]
  constructor
  · rintro ⟨pb, hmem, rfl⟩
    rcases List.mem_filterMap.1 hmem with ⟨kv, hkv, hf⟩
    by_cases hneg : kv.2 < 0
    · rw [if_pos hneg] at hf
      cases hf
      exact ⟨kv, hkv, hneg, rfl⟩
    · rw [if_neg hneg] at hf
      cases hf
  · rintro ⟨kv, hkv, hneg, rfl⟩
    exact ⟨⟨kv.1, -kv.2⟩, List.mem_filterMap.2 ⟨kv, hkv, by rw [if_pos hneg]⟩, rfl⟩

/-- C10: every emitted settlement goes from a person with strictly negative
balance to a person with strictly positive balance in the input map, so the
two parties always differ. -/
theorem c10_settlement_parties (B : Balances) (hnd : (keysAL B).Nodup) :
    ∀ s ∈ calculateOptimalSettlements B,
      bal B s.fromPerson < 0 ∧ 0 < bal B s.toPerson ∧ s.fromPerson ≠ s.toPerson := by
  intro s hs
  unfold calculateOptimalSettlements generateSettlements at hs
  obtain ⟨hto, hfrom, hpos⟩ := gsFuel_mem _ _ _ s hs
  have hto2 : s.toPerson ∈ personsPB (extractCreditors B) := by
    have := (sortByBalance_perm (extractCreditors B)).map PersonBalance.person
    exact this.mem_iff.1 hto
  have hfrom2 : s.fromPerson ∈ personsPB (extractDebtors B) := by
    have := (sortByBalance_perm (extractDebtors B)).map PersonBalance.person
    exact this.mem_iff.1 hfrom
  obtain ⟨⟨pc, vc⟩, hkvc, hposc, hpc⟩ := mem_persons_extractCreditors.1 hto2
  obtain ⟨⟨pd, vd⟩, hkvd, hnegd, hpd⟩ := mem_persons_extractDebtors.1 hfrom2
  dsimp only at hposc hnegd hpc hpd
  subst hpc
  subst hpd
  have hbalc : bal B s.toPerson = vc := bal_of_mem_nodup hnd hkvc
  have hbald : bal B s.fromPerson = vd := bal_of_mem_nodup hnd hkvd
  refine ⟨by rw [hbald]; exact hnegd, by rw [hbalc]; exact hposc, ?_⟩
  intro heq
  rw [heq, hbalc] at hbald
  rw [← hbald] at hnegd
  exact absurd hposc (not_lt.2 (le_of_lt hnegd))

/-- Witness for C10 at a concrete balance map. -/
theorem c10_settlement_parties_witness :
    (keysAL [("a", (1 : ℚ)), ("b", (-1 : ℚ))]).Nodup ∧
    (∀ s ∈ calculateOptimalSettlements [("a", (1 : ℚ)), ("b", (-1 : ℚ))],
      bal [("a", (1 : ℚ)), ("b", (-1 : ℚ))] s.fromPerson < 0 ∧
        0 < bal [("a", (1 : ℚ)), ("b", (-1 : ℚ))] s.toPerson ∧
        s.fromPerson ≠ s.toPerson) := by
  refine ⟨by simp [keysAL], ?_⟩
  exact c10_settlement_parties [("a", (1 : ℚ)), ("b", (-1 : ℚ))] (by simp [keysAL])

/-- C8: the settlement minimizer does not change the balance map it is given;
only the extracted creditor/debtor copies are consumed by the loop. -/
theorem c8_balances_unchanged (B : Balances) :
    (calculateOptimalSettlementsTrace B).2 = B ∧
    (calculateOptimalSettlementsTrace B).1 = calculateOptimalSettlements B :=
  ⟨rfl, rfl⟩

theorem gsFuel_length_le (fuel : ℕ) :
    ∀ (cs ds : List PersonBalance), GoodList cs → GoodList ds →
      cs.length + ds.length ≤ fuel →
      (gsFuel fuel cs ds).length ≤ cs.length + ds.length - 1 := by
  induction fuel with
  | zero =>
    intro cs ds _ _ _
    simp [gsFuel]
  | succ f ih =>
    intro cs ds hgc hgd hlen
    match cs, ds with
    | [], _ => simp [gsFuel]
    | _ :: _, [] => simp [gsFuel]
    | c :: cs, d :: ds =>
      obtain ⟨hcpos, hccents⟩ := hgc c (by simp)
      obtain ⟨hdpos, hdcents⟩ := hgd d (by simp)
      have hgc' : GoodList cs := fun pb h => hgc pb (by simp [h])
      have hgd' : GoodList ds := fun pb h => hgd pb (by simp [h])
      have hmin : Round (min c.balance d.balance) = min c.balance d.balance :=
        Round_eq_self (isCents_min hccents hdcents)
      have hminpos : 0 < min c.balance d.balance := lt_min hcpos hdpos
      have hamt : Round (min c.balance d.balance) > 0 := by rw [hmin]; exact hminpos
      rw [gsFuel]
      dsimp only
      rw [if_pos hamt]
      simp only [List.length_cons]
      rcases lt_trichotomy c.balance d.balance with hlt | heq | hgt
      · have hminc : min c.balance d.balance = c.balance := min_eq_left (le_of_lt hlt)
        have hc0 : Round (c.balance - Round (min c.balance d.balance)) = 0 := by
          rw [hmin, hminc, sub_self]
          exact Round_eq_self isCents_zero
        have hd0 : ¬ Round (d.balance - Round (min c.balance d.balance)) = 0 := by
          rw [hmin, hminc]
          rw [Round_eq_zero_iff (isCents_sub hdcents hccents)]
          intro hz
          linarith
        rw [if_pos hc0, if_neg hd0]
        have hrec := ih cs (⟨d.person, d.balance - Round (min c.balance d.balance)⟩ :: ds)
          hgc'
          (by
            intro pb hpb
            rcases List.mem_cons.1 hpb with rfl | hpb2
            · constructor
              · dsimp only
                rw [hmin, hminc]
                linarith
              · dsimp only
                rw [hmin, hminc]
                exact isCents_sub hdcents hccents
            · exact hgd' pb hpb2)
          (by simp only [List.length_cons] at hlen ⊢; omega)
        simp only [List.length_cons] at hrec
        omega
      · have hminc : min c.balance d.balance = c.balance := min_eq_left (le_of_eq heq)
        have hc0 : Round (c.balance - Round (min c.balance d.balance)) = 0 := by
          rw [hmin, hminc, sub_self]
          exact Round_eq_self isCents_zero
        have hd0 : Round (d.balance - Round (min c.balance d.balance)) = 0 := by
          rw [hmin, hminc, ← heq, sub_self]
          exact Round_eq_self isCents_zero
        rw [if_pos hc0, if_pos hd0]
        have hrec := ih cs ds hgc' hgd'
          (by simp only [List.length_cons] at hlen; omega)
        omega
      · have hminc : min c.balance d.balance = d.balance := min_eq_right (le_of_lt hgt)
        have hd0 : Round (d.balance - Round (min c.balance d.balance)) = 0 := by
          rw [hmin, hminc, sub_self]
          exact Round_eq_self isCents_zero
        have hc0 : ¬ Round (c.balance - Round (min c.balance d.balance)) = 0 := by
          rw [hmin, hminc]
          rw [Round_eq_zero_iff (isCents_sub hccents hdcents)]
          intro hz
          linarith
        rw [if_neg hc0, if_pos hd0]
        have hrec := ih (⟨c.person, c.balance - Round (min c.balance d.balance)⟩ :: cs) ds
          (by
            intro pb hpb
            rcases List.mem_cons.1 hpb with rfl | hpb2
            · constructor
              · dsimp only
                rw [hmin, hminc]
                linarith
              · dsimp only
                rw [hmin, hminc]
                exact isCents_sub hccents hdcents
            · exact hgc' pb hpb2)
          hgd'
          (by simp only [List.length_cons] at hlen ⊢; omega)
        simp only [List.length_cons] at hrec
        omega

theorem extract_length (B : Balances) :
    (extractCreditors B).length + (extractDebtors B).length =
      (B.filter (fun kv => decide (kv.2 ≠ 0))).length := by
  induction B with
  | nil => rfl
  | cons kv rest ih =>
    unfold extractCreditors extractDebtors at ih ⊢
    rw [List.filterMap_cons, List.filterMap_cons, List.filter_cons]
    rcases lt_trichotomy kv.2 0 with hneg | hzero | hpos
    · have h1 : ¬ kv.2 > 0 := by linarith
      have h2 : decide (kv.2 ≠ 0) = true := decide_eq_true (by
        intro hz
        rw [hz] at hneg
        exact lt_irrefl 0 hneg)
      rw [if_neg h1, if_pos hneg, h2]
      simp only [if_true, List.length_cons]
      omega
    · have h1 : ¬ kv.2 > 0 := by rw [hzero]; exact lt_irrefl 0
      have h2 : ¬ kv.2 < 0 := by rw [hzero]; exact lt_irrefl 0
      have h3 : decide (kv.2 ≠ 0) = false := by
        rw [decide_eq_false_iff_not]
        intro hne
        exact hne hzero
      rw [if_neg h1, if_neg h2, h3]
      simpa using ih
    · have h2 : ¬ kv.2 < 0 := by linarith
      have h3 : decide (kv.2 ≠ 0) = true := decide_eq_true (by
        intro hz
        rw [hz] at hpos
        exact lt_irrefl 0 hpos)
      rw [if_pos hpos, if_neg h2, h3]
      simp only [if_true, List.length_cons]
      omega

theorem good_extractCreditors {B : Balances} (hc : AllCents B) :
    GoodList (extractCreditors B) := by
  intro pb hpb
  rcases List.mem_filterMap.1 hpb with ⟨kv, hkv, hf⟩
  by_cases hpos : kv.2 > 0
  · rw [if_pos hpos] at hf
    cases hf
    exact ⟨hpos, hc kv hkv⟩
  · rw [if_neg hpos] at hf
    cases hf

theorem good_extractDebtors {B : Balances} (hc : AllCents B) :
    GoodList (extractDebtors B) := by
  intro pb hpb
  rcases List.mem_filterMap.1 hpb with ⟨kv, hkv, hf⟩
  by_cases hneg : kv.2 < 0
  · rw [if_pos hneg] at hf
    cases hf
    refine ⟨by simp; linarith, ?_⟩
    exact isCents_neg (hc kv hkv)
  · rw [if_neg hneg] at hf
    cases hf

theorem goodList_of_perm {l l' : List PersonBalance} (hp : l'.Perm l)
    (hg : GoodList l) : GoodList l' :=
  fun pb hpb => hg pb (hp.mem_iff.1 hpb)

/-- C3: on a cent-quantized balance map with at least one nonzero balance,
the settlement minimizer emits at most `N - 1` settlements, where `N` is the
number of nonzero balances. -/
theorem c3_minimality (B : Balances) (hc : AllCents B)
    (hnz : 0 < (B.filter (fun kv => decide (kv.2 ≠ 0))).length) :
    (calculateOptimalSettlements B).length ≤
      (B.filter (fun kv => decide (kv.2 ≠ 0))).length - 1 := by
  unfold calculateOptimalSettlements generateSettlements
  have hgc := goodList_of_perm (sortByBalance_perm (extractCreditors B))
    (good_extractCreditors hc)
  have hgd := goodList_of_perm (sortByBalance_perm (extractDebtors B))
    (good_extractDebtors hc)
  have hlc : (sortByBalance (extractCreditors B)).length = (extractCreditors B).length :=
    (sortByBalance_perm _).length_eq
  have hld : (sortByBalance (extractDebtors B)).length = (extractDebtors B).length :=
    (sortByBalance_perm _).length_eq
  have hbound := gsFuel_length_le _ _ _ hgc hgd (le_refl _)
  have heq : (sortByBalance (extractCreditors B)).length +
      (sortByBalance (extractDebtors B)).length =
      (B.filter (fun kv => decide (kv.2 ≠ 0))).length := by
    rw [hlc, hld]
    exact extract_length B
  rw [← heq]
  exact hbound

/-- Witness for C3 at a concrete balance map with three nonzero balances:
at most two settlements are emitted. -/
theorem c3_minimality_witness :
    (calculateOptimalSettlements
        [("a", (1 : ℚ)), ("b", (-1/2 : ℚ)), ("c", (-1/2 : ℚ))]).length ≤
      ([("a", (1 : ℚ)), ("b", (-1/2 : ℚ)), ("c", (-1/2 : ℚ))].filter
        (fun kv => decide (kv.2 ≠ 0))).length - 1 := by
  apply c3_minimality
  · intro kv hkv
    simp only [List.mem_cons, List.not_mem_nil, or_false] at hkv
    rcases hkv with rfl | rfl | rfl
    · exact ⟨100, by norm_num⟩
    · exact ⟨-50, by norm_num⟩
    · exact ⟨-50, by norm_num⟩
  · norm_num

theorem receivedOf_cons (p : String) (s : Settlement) (ss : List Settlement) :
    receivedOf p (s :: ss) =
      (if s.toPerson = p then s.amount else 0) + receivedOf p ss := by
  simp [receivedOf]

theorem paidOf_cons (p : String) (s : Settlement) (ss : List Settlement) :
    paidOf p (s :: ss) =
      (if s.fromPerson = p then s.amount else 0) + paidOf p ss := by
  simp [paidOf]

theorem receivedOf_gsFuel_zero (f : ℕ) (cs ds : List PersonBalance) (p : String)
    (h : p ∉ personsPB cs) : receivedOf p (gsFuel f cs ds) = 0 := by
  unfold receivedOf
  apply List.sum_eq_zero
  intro x hx
  rcases List.mem_map.1 hx with ⟨s, hs, rfl⟩
  have hmem := (gsFuel_mem f cs ds s hs).1
  rw [if_neg]
  intro he
  rw [he] at hmem
  exact h hmem

theorem paidOf_gsFuel_zero (f : ℕ) (cs ds : List PersonBalance) (p : String)
    (h : p ∉ personsPB ds) : paidOf p (gsFuel f cs ds) = 0 := by
  unfold paidOf
  apply List.sum_eq_zero
  intro x hx
  rcases List.mem_map.1 hx with ⟨s, hs, rfl⟩
  have hmem := (gsFuel_mem f cs ds s hs).2.1
  rw [if_neg]
  intro he
  rw [he] at hmem
  exact h hmem

theorem bal_applySettlement (B : Balances) (s : Settlement) (p : String) :
    bal (applySettlement B s) p =
      bal B p + (if s.fromPerson = p then s.amount else 0) -
        (if s.toPerson = p then s.amount else 0) := by
  unfold applySettlement
  by_cases ht : s.toPerson = p
  · by_cases hf : s.fromPerson = p
    · rw [if_pos ht, if_pos hf, ht, bal_addBal_self, hf, bal_addBal_self]
      ring
    · rw [if_pos ht, if_neg hf, ht, bal_addBal_self,
        bal_addBal_ne _ _ (fun he => hf he.symm)]
      ring
  · by_cases hf : s.fromPerson = p
    · rw [if_neg ht, if_pos hf, bal_addBal_ne _ _ (fun he => ht he.symm), hf,
        bal_addBal_self]
      ring
    · rw [if_neg ht, if_neg hf, bal_addBal_ne _ _ (fun he => ht he.symm),
        bal_addBal_ne _ _ (fun he => hf he.symm)]
      ring

theorem bal_applySettlements (ss : List Settlement) (B : Balances) (p : String) :
    bal (applySettlements B ss) p = bal B p + paidOf p ss - receivedOf p ss := by
  induction ss generalizing B with
  | nil => simp [applySettlements, receivedOf, paidOf]
  | cons s rest ih =>
    unfold applySettlements at ih ⊢
    rw [List.foldl_cons, ih, bal_applySettlement, receivedOf_cons, paidOf_cons]
    ring

theorem sumPB_nonneg {l : List PersonBalance} (hg : GoodList l) : 0 ≤ sumPB l := by
  induction l with
  | nil => simp [sumPB]
  | cons pb rest ih =>
    have h1 := (hg pb (by simp)).1
    have h2 := ih (fun pb2 h2 => hg pb2 (by simp [h2]))
    simp only [sumPB, List.map_cons, List.sum_cons]
    unfold sumPB at h2
    linarith

theorem mem_le_sumPB {l : List PersonBalance} (hg : GoodList l) {pb : PersonBalance}
    (hmem : pb ∈ l) : pb.balance ≤ sumPB l := by
  induction l with
  | nil => simp at hmem
  | cons pb2 rest ih =>
    have hrest : GoodList rest := fun pb3 h3 => hg pb3 (by simp [h3])
    rcases List.mem_cons.1 hmem with rfl | hmem2
    · have := sumPB_nonneg hrest
      simp only [sumPB, List.map_cons, List.sum_cons]
      unfold sumPB at this
      linarith
    · have h1 := (hg pb2 (by simp)).1
      have h2 := ih hrest hmem2
      simp only [sumPB, List.map_cons, List.sum_cons]
      unfold sumPB at h2
      linarith

theorem gs_creditor_residual (fuel : ℕ) :
    ∀ (cs ds : List PersonBalance), GoodList cs → GoodList ds →
      (personsPB cs).Nodup → cs.length + ds.length ≤ fuel →
      ∀ pb ∈ cs,
        0 ≤ pb.balance - receivedOf pb.person (gsFuel fuel cs ds) ∧
        pb.balance - receivedOf pb.person (gsFuel fuel cs ds) ≤
          max (sumPB cs - sumPB ds) 0 := by
  induction fuel with
  | zero =>
    intro cs ds _ _ _ hlen pb hpb
    have : cs = [] := by
      cases cs with
      | nil => rfl
      | cons c cs => simp at hlen
    subst this
    simp at hpb
  | succ f ih =>
    intro cs ds hgc hgd hnd hlen pb hpb
    match cs, ds with
    | [], _ => simp at hpb
    | c :: cs, [] =>
      have hrec : gsFuel (f + 1) (c :: cs) [] = [] := by rw [gsFuel]
      rw [hrec]
      have h0 : receivedOf pb.person [] = 0 := by simp [receivedOf]
      rw [h0]
      have hle := mem_le_sumPB hgc hpb
      have hpos := (hgc pb hpb).1
      constructor
      · linarith
      · have : sumPB ([] : List PersonBalance) = 0 := by simp [sumPB]
        rw [this]
        have : pb.balance ≤ max (sumPB (c :: cs) - 0) 0 := by
          refine le_trans hle ?_
          refine le_trans ?_ (le_max_left _ _)
          linarith
        linarith
    | c :: cs, d :: ds =>
      obtain ⟨hcpos, hccents⟩ := hgc c (by simp)
      obtain ⟨hdpos, hdcents⟩ := hgd d (by simp)
      have hgc' : GoodList cs := fun pb h => hgc pb (by simp [h])
      have hgd' : GoodList ds := fun pb h => hgd pb (by simp [h])
      have hnd' : (personsPB cs).Nodup := by
        simp only [personsPB, List.map_cons, List.nodup_cons] at hnd
        exact hnd.2
      have hcnotin : c.person ∉ personsPB cs := by
        simp only [personsPB, List.map_cons, List.nodup_cons] at hnd
        exact hnd.1
      have hmin : Round (min c.balance d.balance) = min c.balance d.balance :=
        Round_eq_self (isCents_min hccents hdcents)
      have hminpos : 0 < min c.balance d.balance := lt_min hcpos hdpos
      have hamt : Round (min c.balance d.balance) > 0 := by rw [hmin]; exact hminpos
      have hSC : sumPB (c :: cs) = c.balance + sumPB cs := by simp [sumPB]
      have hSD : sumPB (d :: ds) = d.balance + sumPB ds := by simp [sumPB]
      rw [gsFuel]
      dsimp only
      rw [if_pos hamt]
      rcases lt_trichotomy c.balance d.balance with hlt | heq | hgt
      · -- creditor head retires
        have hminc : min c.balance d.balance = c.balance := min_eq_left (le_of_lt hlt)
        have hc0 : Round (c.balance - Round (min c.balance d.balance)) = 0 := by
          rw [hmin, hminc, sub_self]
          exact Round_eq_self isCents_zero
        have hd0 : ¬ Round (d.balance - Round (min c.balance d.balance)) = 0 := by
          rw [hmin, hminc, Round_eq_zero_iff (isCents_sub hdcents hccents)]
          intro hz
          linarith
        rw [if_pos hc0, if_neg hd0]
        have hgd2 : GoodList (⟨d.person, d.balance - Round (min c.balance d.balance)⟩ :: ds) := by
          intro pb2 hpb2
          rcases List.mem_cons.1 hpb2 with rfl | hpb2
          · refine ⟨?_, ?_⟩ <;> dsimp only <;> rw [hmin, hminc]
            · linarith
            · exact isCents_sub hdcents hccents
          · exact hgd' pb2 hpb2
        have hlen' : cs.length +
            (⟨d.person, d.balance - Round (min c.balance d.balance)⟩ :: ds).length ≤ f := by
          simp only [List.length_cons] at hlen ⊢
          omega
        rcases List.mem_cons.1 hpb with rfl | hpbtail
        · -- the head creditor: fully settled
          rw [receivedOf_cons, if_pos rfl,
            receivedOf_gsFuel_zero f _ _ _ hcnotin, hmin, hminc]
          constructor
          · linarith
          · have : pb.balance - (pb.balance + 0) = 0 := by ring
            rw [this]
            exact le_max_right _ _
        · have hne : c.person ≠ pb.person := by
            intro he
            exact hcnotin (he ▸ List.mem_map_of_mem PersonBalance.person hpbtail)
          rw [receivedOf_cons, if_neg hne]
          have hrec := ih cs _ hgc' hgd2 hnd' hlen' pb hpbtail
          have hsum2 : sumPB (⟨d.person, d.balance - Round (min c.balance d.balance)⟩ :: ds) =
              d.balance - c.balance + sumPB ds := by
            simp only [sumPB, List.map_cons, List.sum_cons]
            rw [hmin, hminc]
          rw [hsum2] at hrec
          rw [hSC, hSD]
          have hmaxeq : max (sumPB cs - (d.balance - c.balance + sumPB ds)) 0 =
              max (c.balance + sumPB cs - (d.balance + sumPB ds)) 0 := by
            congr 1
            ring
          rw [hmaxeq] at hrec
          constructor
          · linarith [hrec.1]
          · linarith [hrec.2]
      · -- both retire
        have hminc : min c.balance d.balance = c.balance := min_eq_left (le_of_eq heq)
        have hc0 : Round (c.balance - Round (min c.balance d.balance)) = 0 := by
          rw [hmin, hminc, sub_self]
          exact Round_eq_self isCents_zero
        have hd0 : Round (d.balance - Round (min c.balance d.balance)) = 0 := by
          rw [hmin, hminc, ← heq, sub_self]
          exact Round_eq_self isCents_zero
        rw [if_pos hc0, if_pos hd0]
        have hlen' : cs.length + ds.length ≤ f := by
          simp only [List.length_cons] at hlen
          omega
        rcases List.mem_cons.1 hpb with rfl | hpbtail
        · rw [receivedOf_cons, if_pos rfl,
            receivedOf_gsFuel_zero f _ _ _ hcnotin, hmin, hminc]
          constructor
          · linarith
          · have : pb.balance - (pb.balance + 0) = 0 := by ring
            rw [this]
            exact le_max_right _ _
        · have hne : c.person ≠ pb.person := by
            intro he
            exact hcnotin (he ▸ List.mem_map_of_mem PersonBalance.person hpbtail)
          rw [receivedOf_cons, if_neg hne]
          have hrec := ih cs ds hgc' hgd' hnd' hlen' pb hpbtail
          rw [hSC, hSD]
          have hmaxeq : max (sumPB cs - sumPB ds) 0 =
              max (c.balance + sumPB cs - (d.balance + sumPB ds)) 0 := by
            congr 1
            rw [heq]
            ring
          rw [hmaxeq] at hrec
          constructor
          · linarith [hrec.1]
          · linarith [hrec.2]
      · -- debtor head retires, creditor head reduced
        have hminc : min c.balance d.balance = d.balance := min_eq_right (le_of_lt hgt)
        have hd0 : Round (d.balance - Round (min c.balance d.balance)) = 0 := by
          rw [hmin, hminc, sub_self]
          exact Round_eq_self isCents_zero
        have hc0 : ¬ Round (c.balance - Round (min c.balance d.balance)) = 0 := by
          rw [hmin, hminc, Round_eq_zero_iff (isCents_sub hccents hdcents)]
          intro hz
          linarith
        rw [if_neg hc0, if_pos hd0]
        have hgc2 : GoodList (⟨c.person, c.balance - Round (min c.balance d.balance)⟩ :: cs) := by
          intro pb2 hpb2
          rcases List.mem_cons.1 hpb2 with rfl | hpb2
          · refine ⟨?_, ?_⟩ <;> dsimp only <;> rw [hmin, hminc]
            · linarith
            · exact isCents_sub hccents hdcents
          · exact hgc' pb2 hpb2
        have hnd2 : (personsPB
            (⟨c.person, c.balance - Round (min c.balance d.balance)⟩ :: cs)).Nodup := by
          simp only [personsPB, List.map_cons, List.nodup_cons] at hnd ⊢
          exact hnd
        have hlen' : (⟨c.person, c.balance - Round (min c.balance d.balance)⟩ :: cs).length +
            ds.length ≤ f := by
          simp only [List.length_cons] at hlen ⊢
          omega
        have hsum2 : sumPB (⟨c.person, c.balance - Round (min c.balance d.balance)⟩ :: cs) =
            c.balance - d.balance + sumPB cs := by
          simp only [sumPB, List.map_cons, List.sum_cons]
          rw [hmin, hminc]
        rcases List.mem_cons.1 hpb with rfl | hpbtail
        · -- the head creditor receives the amount and continues with reduced balance
          have hrec := ih _ ds hgc2 hgd' hnd2 hlen'
            ⟨pb.person, pb.balance - Round (min pb.balance d.balance)⟩
            (List.mem_cons_self _ _)
          dsimp only at hrec
          rw [hsum2] at hrec
          rw [receivedOf_cons, if_pos rfl]
          dsimp only
          rw [hSC, hSD]
          have hmaxeq : max (pb.balance - d.balance + sumPB cs - sumPB ds) 0 =
              max (pb.balance + sumPB cs - (d.balance + sumPB ds)) 0 := by
            congr 1
            ring
          rw [hmaxeq] at hrec
          rw [hmin, hminc] at hrec ⊢
          constructor
          · linarith [hrec.1]
          · linarith [hrec.2]
        · have hne : c.person ≠ pb.person := by
            intro he
            exact hcnotin (he ▸ List.mem_map_of_mem PersonBalance.person hpbtail)
          rw [receivedOf_cons, if_neg hne]
          have hrec := ih _ ds hgc2 hgd' hnd2 hlen' pb (by simp [hpbtail])
          rw [hsum2] at hrec
          rw [hSC, hSD]
          have hmaxeq : max (c.balance - d.balance + sumPB cs - sumPB ds) 0 =
              max (c.balance + sumPB cs - (d.balance + sumPB ds)) 0 := by
            congr 1
            ring
          rw [hmaxeq] at hrec
          constructor
          · linarith [hrec.1]
          · linarith [hrec.2]

theorem gs_debtor_residual (fuel : ℕ) :
    ∀ (cs ds : List PersonBalance), GoodList cs → GoodList ds →
      (personsPB ds).Nodup → cs.length + ds.length ≤ fuel →
      ∀ pb ∈ ds,
        0 ≤ pb.balance - paidOf pb.person (gsFuel fuel cs ds) ∧
        pb.balance - paidOf pb.person (gsFuel fuel cs ds) ≤
          max (sumPB ds - sumPB cs) 0 := by
  induction fuel with
  | zero =>
    intro cs ds _ _ _ hlen pb hpb
    have : ds = [] := by
      cases ds with
      | nil => rfl
      | cons d ds => simp at hlen
    subst this
    simp at hpb
  | succ f ih =>
    intro cs ds hgc hgd hnd hlen pb hpb
    match cs, ds with
    | _, [] => simp at hpb
    | [], d :: ds =>
      have hrec : gsFuel (f + 1) [] (d :: ds) = [] := by rw [gsFuel]
      rw [hrec]
      have h0 : paidOf pb.person [] = 0 := by simp [paidOf]
      rw [h0]
      have hle := mem_le_sumPB hgd hpb
      have hpos := (hgd pb hpb).1
      constructor
      · linarith
      · have hz : sumPB ([] : List PersonBalance) = 0 := by simp [sumPB]
        rw [hz]
        have : pb.balance ≤ max (sumPB (d :: ds) - 0) 0 := by
          refine le_trans hle ?_
          refine le_trans ?_ (le_max_left _ _)
          linarith
        linarith
    | c :: cs, d :: ds =>
      obtain ⟨hcpos, hccents⟩ := hgc c (by simp)
      obtain ⟨hdpos, hdcents⟩ := hgd d (by simp)
      have hgc' : GoodList cs := fun pb h => hgc pb (by simp [h])
      have hgd' : GoodList ds := fun pb h => hgd pb (by simp [h])
      have hnd' : (personsPB ds).Nodup := by
        simp only [personsPB, List.map_cons, List.nodup_cons] at hnd
        exact hnd.2
      have hdnotin : d.person ∉ personsPB ds := by
        simp only [personsPB, List.map_cons, List.nodup_cons] at hnd
        exact hnd.1
      have hmin : Round (min c.balance d.balance) = min c.balance d.balance :=
        Round_eq_self (isCents_min hccents hdcents)
      have hminpos : 0 < min c.balance d.balance := lt_min hcpos hdpos
      have hamt : Round (min c.balance d.balance) > 0 := by rw [hmin]; exact hminpos
      have hSC : sumPB (c :: cs) = c.balance + sumPB cs := by simp [sumPB]
      have hSD : sumPB (d :: ds) = d.balance + sumPB ds := by simp [sumPB]
      rw [gsFuel]
      dsimp only
      rw [if_pos hamt]
      rcases lt_trichotomy c.balance d.balance with hlt | heq | hgt
      · -- creditor head retires, debtor head reduced
        have hminc : min c.balance d.balance = c.balance := min_eq_left (le_of_lt hlt)
        have hc0 : Round (c.balance - Round (min c.balance d.balance)) = 0 := by
          rw [hmin, hminc, sub_self]
          exact Round_eq_self isCents_zero
        have hd0 : ¬ Round (d.balance - Round (min c.balance d.balance)) = 0 := by
          rw [hmin, hminc, Round_eq_zero_iff (isCents_sub hdcents hccents)]
          intro hz
          linarith
        rw [if_pos hc0, if_neg hd0]
        have hgd2 : GoodList (⟨d.person, d.balance - Round (min c.balance d.balance)⟩ :: ds) := by
          intro pb2 hpb2
          rcases List.mem_cons.1 hpb2 with rfl | hpb2
          · refine ⟨?_, ?_⟩ <;> dsimp only <;> rw [hmin, hminc]
            · linarith
            · exact isCents_sub hdcents hccents
          · exact hgd' pb2 hpb2
        have hnd2 : (personsPB
            (⟨d.person, d.balance - Round (min c.balance d.balance)⟩ :: ds)).Nodup := by
          simp only [personsPB, List.map_cons, List.nodup_cons] at hnd ⊢
          exact hnd
        have hlen' : cs.length +
            (⟨d.person, d.balance - Round (min c.balance d.balance)⟩ :: ds).length ≤ f := by
          simp only [List.length_cons] at hlen ⊢
          omega
        have hsum2 : sumPB (⟨d.person, d.balance - Round (min c.balance d.balance)⟩ :: ds) =
            d.balance - c.balance + sumPB ds := by
          simp only [sumPB, List.map_cons, List.sum_cons]
          rw [hmin, hminc]
        rcases List.mem_cons.1 hpb with rfl | hpbtail
        · -- the head debtor pays the amount and continues with reduced balance
          have hrec := ih cs _ hgc' hgd2 hnd2 hlen'
            ⟨pb.person, pb.balance - Round (min c.balance pb.balance)⟩
            (List.mem_cons_self _ _)
          dsimp only at hrec
          rw [hsum2] at hrec
          rw [paidOf_cons, if_pos rfl]
          dsimp only
          rw [hSC, hSD]
          have hmaxeq : max (pb.balance - c.balance + sumPB ds - sumPB cs) 0 =
              max (pb.balance + sumPB ds - (c.balance + sumPB cs)) 0 := by
            congr 1
            ring
          rw [hmaxeq] at hrec
          rw [hmin, hminc] at hrec ⊢
          constructor
          · linarith [hrec.1]
          · linarith [hrec.2]
        · have hne : d.person ≠ pb.person := by
            intro he
            exact hdnotin (he ▸ List.mem_map_of_mem PersonBalance.person hpbtail)
          rw [paidOf_cons, if_neg hne]
          have hrec := ih cs _ hgc' hgd2 hnd2 hlen' pb (by simp [hpbtail])
          rw [hsum2] at hrec
          rw [hSC, hSD]
          have hmaxeq : max (d.balance - c.balance + sumPB ds - sumPB cs) 0 =
              max (d.balance + sumPB ds - (c.balance + sumPB cs)) 0 := by
            congr 1
            ring
          rw [hmaxeq] at hrec
          constructor
          · linarith [hrec.1]
          · linarith [hrec.2]
      · -- both retire
        have hminc : min c.balance d.balance = c.balance := min_eq_left (le_of_eq heq)
        have hc0 : Round (c.balance - Round (min c.balance d.balance)) = 0 := by
          rw [hmin, hminc, sub_self]
          exact Round_eq_self isCents_zero
        have hd0 : Round (d.balance - Round (min c.balance d.balance)) = 0 := by
          rw [hmin, hminc, ← heq, sub_self]
          exact Round_eq_self isCents_zero
        rw [if_pos hc0, if_pos hd0]
        have hlen' : cs.length + ds.length ≤ f := by
          simp only [List.length_cons] at hlen
          omega
        rcases List.mem_cons.1 hpb with rfl | hpbtail
        · rw [paidOf_cons, if_pos rfl,
            paidOf_gsFuel_zero f _ _ _ hdnotin, hmin, hminc, heq]
          constructor
          · linarith
          · have hz : pb.balance - (pb.balance + 0) = 0 := by ring
            rw [hz]
            exact le_max_right _ _
        · have hne : d.person ≠ pb.person := by
            intro he
            exact hdnotin (he ▸ List.mem_map_of_mem PersonBalance.person hpbtail)
          rw [paidOf_cons, if_neg hne]
          have hrec := ih cs ds hgc' hgd' hnd' hlen' pb hpbtail
          rw [hSC, hSD]
          have hmaxeq : max (sumPB ds - sumPB cs) 0 =
              max (d.balance + sumPB ds - (c.balance + sumPB cs)) 0 := by
            congr 1
            rw [heq]
            ring
          rw [hmaxeq] at hrec
          constructor
          · linarith [hrec.1]
          · linarith [hrec.2]
      · -- debtor head retires
        have hminc : min c.balance d.balance = d.balance := min_eq_right (le_of_lt hgt)
        have hd0 : Round (d.balance - Round (min c.balance d.balance)) = 0 := by
          rw [hmin, hminc, sub_self]
          exact Round_eq_self isCents_zero
        have hc0 : ¬ Round (c.balance - Round (min c.balance d.balance)) = 0 := by
          rw [hmin, hminc, Round_eq_zero_iff (isCents_sub hccents hdcents)]
          intro hz
          linarith
        rw [if_neg hc0, if_pos hd0]
        have hgc2 : GoodList (⟨c.person, c.balance - Round (min c.balance d.balance)⟩ :: cs) := by
          intro pb2 hpb2
          rcases List.mem_cons.1 hpb2 with rfl | hpb2
          · refine ⟨?_, ?_⟩ <;> dsimp only <;> rw [hmin, hminc]
            · linarith
            · exact isCents_sub hccents hdcents
          · exact hgc' pb2 hpb2
        have hlen' : (⟨c.person, c.balance - Round (min c.balance d.balance)⟩ :: cs).length +
            ds.length ≤ f := by
          simp only [List.length_cons] at hlen ⊢
          omega
        have hsum2 : sumPB (⟨c.person, c.balance - Round (min c.balance d.balance)⟩ :: cs) =
            c.balance - d.balance + sumPB cs := by
          simp only [sumPB, List.map_cons, List.sum_cons]
          rw [hmin, hminc]
        rcases List.mem_cons.1 hpb with rfl | hpbtail
        · -- the head debtor is fully settled
          rw [paidOf_cons, if_pos rfl,
            paidOf_gsFuel_zero f _ _ _ hdnotin, hmin, hminc]
          constructor
          · linarith
          · have hz : pb.balance - (pb.balance + 0) = 0 := by ring
            rw [hz]
            exact le_max_right _ _
        · have hne : d.person ≠ pb.person := by
            intro he
            exact hdnotin (he ▸ List.mem_map_of_mem PersonBalance.person hpbtail)
          rw [paidOf_cons, if_neg hne]
          have hrec := ih _ ds hgc2 hgd' hnd' hlen' pb hpbtail
          rw [hsum2] at hrec
          rw [hSC, hSD]
          have hmaxeq : max (sumPB ds - (c.balance - d.balance + sumPB cs)) 0 =
              max (d.balance + sumPB ds - (c.balance + sumPB cs)) 0 := by
            congr 1
            ring
          rw [hmaxeq] at hrec
          constructor
          · linarith [hrec.1]
          · linarith [hrec.2]

theorem nodup_keys_addLoop (l : List String) (x : ℚ) {B : Balances}
    (h : (keysAL B).Nodup) :
    (keysAL (l.foldl (fun b p => addBal b p x) B)).Nodup := by
  induction l generalizing B with
  | nil => exact h
  | cons p rest ih => exact ih (nodup_keys_addBal h)

theorem nodup_keys_processEqual (e : Expense) {B : Balances}
    (h : (keysAL B).Nodup) : (keysAL (processEqualSplitExpense e B)).Nodup := by
  unfold processEqualSplitExpense
  exact nodup_keys_addLoop _ _ (nodup_keys_addBal h)

theorem nodup_keys_itemsLoop (items : List Item) (st : Balances × Balances × ℚ)
    (h : (keysAL st.1).Nodup) : (keysAL (items.foldl itemStep st).1).Nodup := by
  induction items generalizing st with
  | nil => exact h
  | cons it rest ih =>
    simp only [List.foldl_cons]
    apply ih
    rw [itemStep_fst]
    exact nodup_keys_addLoop _ _ (nodup_keys_addBal h)

theorem nodup_keys_extraFold (E T : ℚ) (totals : Balances) (st : Balances × ℚ × String)
    (h : (keysAL st.1).Nodup) :
    (keysAL (totals.foldl (extraStep E T) st).1).Nodup := by
  induction totals generalizing st with
  | nil => exact h
  | cons kv rest ih =>
    simp only [List.foldl_cons]
    apply ih
    exact nodup_keys_addBal h

theorem nodup_keys_distributeExtra (E T : ℚ) (totals B : Balances)
    (h : (keysAL B).Nodup) : (keysAL (distributeExtraCharges E T totals B)).Nodup := by
  unfold distributeExtraCharges extraLoop
  dsimp only
  have h1 := nodup_keys_extraFold E T totals (B, (0 : ℚ), "") h
  split
  · exact nodup_keys_addBal h1
  · exact h1

theorem nodup_keys_processItems (e : Expense) {B : Balances}
    (h : (keysAL B).Nodup) : (keysAL (processItemSplitExpense e B)).Nodup := by
  unfold processItemSplitExpense processItemsLoop
  dsimp only
  have h1 := nodup_keys_itemsLoop e.items (B, ([] : Balances), (0 : ℚ)) h
  split
  · exact nodup_keys_distributeExtra _ _ _ _ (nodup_keys_addBal h1)
  · exact h1

theorem nodup_keys_aggLoop (es : List Expense) {B : Balances}
    (h : (keysAL B).Nodup) : (keysAL (es.foldl aggStep B)).Nodup := by
  induction es generalizing B with
  | nil => exact h
  | cons e rest ih =>
    simp only [List.foldl_cons]
    apply ih
    unfold aggStep
    cases e.splitType
    · exact nodup_keys_processEqual e h
    · exact nodup_keys_processItems e h

theorem keysAL_roundAll (B : Balances) :
    keysAL (B.map (fun kv => (kv.1, Round kv.2))) = keysAL B := by
  induction B with
  | nil => rfl
  | cons kv rest ih => simp only [List.map_cons, keysAL_cons, ih]

theorem nodup_keys_calculateBalances (es : List Expense) :
    (keysAL (calculateBalances es)).Nodup := by
  unfold calculateBalances
  rw [keysAL_roundAll]
  exact nodup_keys_aggLoop es (by simp)

theorem allCents_calculateBalances (es : List Expense) :
    AllCents (calculateBalances es) := by
  unfold calculateBalances
  intro kv hkv
  rcases List.mem_map.1 hkv with ⟨kv2, _, rfl⟩
  exact isCents_Round kv2.2

theorem sumB_eq_extract (B : Balances) :
    sumB B = sumPB (extractCreditors B) - sumPB (extractDebtors B) := by
  induction B with
  | nil => simp [sumB, sumPB, extractCreditors, extractDebtors]
  | cons kv rest ih =>
    unfold extractCreditors extractDebtors at ih ⊢
    rw [List.filterMap_cons, List.filterMap_cons, sumB_cons]
    rcases lt_trichotomy kv.2 0 with hneg | hzero | hpos
    · rw [if_neg (by linarith : ¬ kv.2 > 0), if_pos hneg]
      simp only [sumPB, List.map_cons, List.sum_cons]
      unfold sumPB at ih
      rw [ih]
      ring
    · rw [if_neg (by rw [hzero]; exact lt_irrefl 0 : ¬ kv.2 > 0),
        if_neg (by rw [hzero]; exact lt_irrefl 0 : ¬ kv.2 < 0), hzero, ih]
      ring
    · rw [if_pos hpos, if_neg (by linarith : ¬ kv.2 < 0)]
      simp only [sumPB, List.map_cons, List.sum_cons]
      unfold sumPB at ih
      rw [ih]
      ring

theorem persons_extractCreditors_sublist (B : Balances) :
    (personsPB (extractCreditors B)).Sublist (keysAL B) := by
  induction B with
  | nil => simp [personsPB, extractCreditors]
  | cons kv rest ih =>
    unfold extractCreditors at ih ⊢
    rw [List.filterMap_cons]
    by_cases hpos : kv.2 > 0
    · rw [if_pos hpos]
      simp only [personsPB, List.map_cons, keysAL_cons]
      exact (ih).cons₂ kv.1
    · rw [if_neg hpos]
      simp only [keysAL_cons]
      exact (ih).cons kv.1

theorem persons_extractDebtors_sublist (B : Balances) :
    (personsPB (extractDebtors B)).Sublist (keysAL B) := by
  induction B with
  | nil => simp [personsPB, extractDebtors]
  | cons kv rest ih =>
    unfold extractDebtors at ih ⊢
    rw [List.filterMap_cons]
    by_cases hneg : kv.2 < 0
    · rw [if_pos hneg]
      simp only [personsPB, List.map_cons, keysAL_cons]
      exact (ih).cons₂ kv.1
    · rw [if_neg hneg]
      simp only [keysAL_cons]
      exact (ih).cons kv.1

theorem mem_extractCreditors_of_pos {B : Balances} {p : String} (hpos : 0 < bal B p) :
    (⟨p, bal B p⟩ : PersonBalance) ∈ extractCreditors B := by
  have hk : p ∈ keysAL B := bal_mem_of_ne_zero (ne_of_gt hpos)
  have hm : (p, bal B p) ∈ B := mem_of_mem_keys hk
  exact List.mem_filterMap.2 ⟨(p, bal B p), hm, by rw [if_pos hpos]⟩

theorem mem_extractDebtors_of_neg {B : Balances} {p : String} (hneg : bal B p < 0) :
    (⟨p, -bal B p⟩ : PersonBalance) ∈ extractDebtors B := by
  have hk : p ∈ keysAL B := bal_mem_of_ne_zero (ne_of_lt hneg)
  have hm : (p, bal B p) ∈ B := mem_of_mem_keys hk
  exact List.mem_filterMap.2 ⟨(p, bal B p), hm, by rw [if_pos hneg]⟩

theorem paidOf_calcOpt_zero {B : Balances} {p : String} (hnd : (keysAL B).Nodup)
    (h : ¬ bal B p < 0) : paidOf p (calculateOptimalSettlements B) = 0 := by
  unfold paidOf
  apply List.sum_eq_zero
  intro x hx
  rcases List.mem_map.1 hx with ⟨s, hs, rfl⟩
  unfold calculateOptimalSettlements generateSettlements at hs
  have hfrom := (gsFuel_mem _ _ _ s hs).2.1
  rw [if_neg]
  intro he
  have hfrom2 : s.fromPerson ∈ personsPB (extractDebtors B) :=
    ((sortByBalance_perm (extractDebtors B)).map PersonBalance.person).mem_iff.1 hfrom
  obtain ⟨⟨pd, vd⟩, hkvd, hnegd, hpd⟩ := mem_persons_extractDebtors.1 hfrom2
  dsimp only at hnegd hpd
  rw [he] at hpd
  subst hpd
  have := bal_of_mem_nodup hnd hkvd
  rw [this] at h
  exact h hnegd

theorem receivedOf_calcOpt_zero {B : Balances} {p : String} (hnd : (keysAL B).Nodup)
    (h : ¬ 0 < bal B p) : receivedOf p (calculateOptimalSettlements B) = 0 := by
  unfold receivedOf
  apply List.sum_eq_zero
  intro x hx
  rcases List.mem_map.1 hx with ⟨s, hs, rfl⟩
  unfold calculateOptimalSettlements generateSettlements at hs
  have hto := (gsFuel_mem _ _ _ s hs).1
  rw [if_neg]
  intro he
  have hto2 : s.toPerson ∈ personsPB (extractCreditors B) :=
    ((sortByBalance_perm (extractCreditors B)).map PersonBalance.person).mem_iff.1 hto
  obtain ⟨⟨pc, vc⟩, hkvc, hposc, hpc⟩ := mem_persons_extractCreditors.1 hto2
  dsimp only at hposc hpc
  rw [he] at hpc
  subst hpc
  have := bal_of_mem_nodup hnd hkvc
  rw [this] at h
  exact h hposc

/-- The general residual bound: on a duplicate-free cent-quantized balance
map, applying all settlements emitted by the minimizer leaves every person's
balance within the absolute value of the map's total sum. -/
theorem settlement_residual_bound (B : Balances) (hnd : (keysAL B).Nodup)
    (hac : AllCents B) (p : String) :
    |bal (applySettlements B (calculateOptimalSettlements B)) p| ≤ |sumB B| := by
  have hS := sumB_eq_extract B
  have hscP := sortByBalance_perm (extractCreditors B)
  have hsdP := sortByBalance_perm (extractDebtors B)
  have hsumc : sumPB (sortByBalance (extractCreditors B)) = sumPB (extractCreditors B) :=
    (hscP.map PersonBalance.balance).sum_eq
  have hsumd : sumPB (sortByBalance (extractDebtors B)) = sumPB (extractDebtors B) :=
    (hsdP.map PersonBalance.balance).sum_eq
  have hgc := goodList_of_perm hscP (good_extractCreditors hac)
  have hgd := goodList_of_perm hsdP (good_extractDebtors hac)
  have hco : calculateOptimalSettlements B =
      gsFuel ((sortByBalance (extractCreditors B)).length +
        (sortByBalance (extractDebtors B)).length)
      (sortByBalance (extractCreditors B)) (sortByBalance (extractDebtors B)) := rfl
  rw [bal_applySettlements]
  rcases lt_trichotomy (bal B p) 0 with hneg | hzero | hpos
  · -- p is a debtor
    have hrz : receivedOf p (calculateOptimalSettlements B) = 0 :=
      receivedOf_calcOpt_zero hnd (by linarith)
    have hmem : (⟨p, -bal B p⟩ : PersonBalance) ∈ sortByBalance (extractDebtors B) :=
      hsdP.mem_iff.2 (mem_extractDebtors_of_neg hneg)
    have hndd : (personsPB (sortByBalance (extractDebtors B))).Nodup := by
      have h1 := (persons_extractDebtors_sublist B).nodup hnd
      exact ((hsdP.map PersonBalance.person).nodup_iff).2 h1
    have hres := gs_debtor_residual _ _ _ hgc hgd hndd (le_refl _) _ hmem
    rw [← hco] at hres
    have hbound : max (sumPB (sortByBalance (extractDebtors B)) -
        sumPB (sortByBalance (extractCreditors B))) 0 ≤ |sumB B| := by
      rw [hsumc, hsumd]
      have hdneg : sumPB (extractDebtors B) - sumPB (extractCreditors B) = -(sumB B) := by
        rw [hS]
        ring
      rw [hdneg]
      exact max_le (neg_le_abs _) (abs_nonneg _)
    have h1 := hres.1
    have h2 := hres.2
    dsimp only at h1 h2
    rw [hrz]
    rw [abs_le]
    constructor
    · linarith [hbound]
    · have h3 : 0 ≤ |sumB B| := abs_nonneg _
      linarith
  · -- p has zero balance
    have hrz : receivedOf p (calculateOptimalSettlements B) = 0 :=
      receivedOf_calcOpt_zero hnd (by rw [hzero]; exact lt_irrefl 0)
    have hpz : paidOf p (calculateOptimalSettlements B) = 0 :=
      paidOf_calcOpt_zero hnd (by rw [hzero]; exact lt_irrefl 0)
    rw [hrz, hpz, hzero]
    simpa using abs_nonneg (sumB B)
  · -- p is a creditor
    have hpz : paidOf p (calculateOptimalSettlements B) = 0 :=
      paidOf_calcOpt_zero hnd (by linarith)
    have hmem : (⟨p, bal B p⟩ : PersonBalance) ∈ sortByBalance (extractCreditors B) :=
      hscP.mem_iff.2 (mem_extractCreditors_of_pos hpos)
    have hndc : (personsPB (sortByBalance (extractCreditors B))).Nodup := by
      have h1 := (persons_extractCreditors_sublist B).nodup hnd
      exact ((hscP.map PersonBalance.person).nodup_iff).2 h1
    have hres := gs_creditor_residual _ _ _ hgc hgd hndc (le_refl _) _ hmem
    rw [← hco] at hres
    have hbound : max (sumPB (sortByBalance (extractCreditors B)) -
        sumPB (sortByBalance (extractDebtors B))) 0 ≤ |sumB B| := by
      rw [hsumc, hsumd]
      have hcpos : sumPB (extractCreditors B) - sumPB (extractDebtors B) = sumB B := by
        rw [hS]
      rw [hcpos]
      exact max_le (le_abs_self _) (abs_nonneg _)
    have h1 := hres.1
    have h2 := hres.2
    dsimp only at h1 h2
    rw [hpz]
    rw [abs_le]
    constructor
    · have h3 : 0 ≤ |sumB B| := abs_nonneg _
      linarith
    · linarith [hbound]

/-- C1 (amended): applying every settlement emitted on the aggregated
balance map leaves every person's balance within `|Σ balances|` of zero — in
particular within one cent whenever the aggregated balances sum to at most
one cent in magnitude.  (As originally stated, with a one-cent bound for
every expense list, the claim is false; see the counterexample.) -/
theorem c1_settlements_bounded_by_sum (es : List Expense) (p : String) :
    |bal (applySettlements (calculateBalances es)
        (calculateOptimalSettlements (calculateBalances es))) p| ≤
      |sumB (calculateBalances es)| :=
  settlement_residual_bound (calculateBalances es)
    (nodup_keys_calculateBalances es) (allCents_calculateBalances es) p

/-- Counterexample to C1 as stated: for the two-expense list
`[cexEqualExpense, cexEqualExpense]`, after applying every emitted
settlement the payer `a` is left with balance 0.02, which is not within one
cent of zero. -/
theorem c1_counterexample :
    1/100 < |bal (applySettlements
        (calculateBalances [cexEqualExpense, cexEqualExpense])
        (calculateOptimalSettlements
          (calculateBalances [cexEqualExpense, cexEqualExpense]))) "a"| := by
  have hval : bal (applySettlements
      (calculateBalances [cexEqualExpense, cexEqualExpense])
      (calculateOptimalSettlements
        (calculateBalances [cexEqualExpense, cexEqualExpense]))) "a" = 1/50 := by
    have sab : (("a" : String) = "b") = False := eq_false (by decide)
    have sac : (("a" : String) = "c") = False := eq_false (by decide)
    have sad : (("a" : String) = "d") = False := eq_false (by decide)
    have sba : (("b" : String) = "a") = False := eq_false (by decide)
    have sbc : (("b" : String) = "c") = False := eq_false (by decide)
    have sbd : (("b" : String) = "d") = False := eq_false (by decide)
    have sca : (("c" : String) = "a") = False := eq_false (by decide)
    have scb : (("c" : String) = "b") = False := eq_false (by decide)
    have scd : (("c" : String) = "d") = False := eq_false (by decide)
    have sda : (("d" : String) = "a") = False := eq_false (by decide)
    have sdb : (("d" : String) = "b") = False := eq_false (by decide)
    have sdc : (("d" : String) = "c") = False := eq_false (by decide)
    norm_num [calculateBalances, aggStep, cexEqualExpense, processEqualSplitExpense,
      addBal, Round, roundHalf, applySettlements, applySettlement,
      calculateOptimalSettlements, generateSettlements, gsFuel, sortByBalance,
      sortFuel, sortPass, extractCreditors, extractDebtors, bal, min_def,
      List.filterMap_cons, List.filterMap_nil, List.length_cons, List.length_nil,
      List.foldl_cons, List.foldl_nil,
      sab, sac, sad, sba, sbc, sbd, sca, scb, scd, sda, sdb, sdc]
  rw [hval, abs_of_pos (by norm_num : (0 : ℚ) < 1/50)]
  norm_num

theorem validateRequired_none {v f : String} (h : ValidateRequired v f = none) :
    v.trim ≠ "" := by
  intro hcond
  unfold ValidateRequired at h
  rw [if_pos hcond] at h
  exact Option.noConfusion h

theorem validatePositive_none {v : ℚ} {f : String} (h : ValidatePositive v f = none) :
    0 < v := by
  by_contra hcon
  unfold ValidatePositive at h
  rw [if_pos (not_lt.1 hcon)] at h
  exact Option.noConfusion h

theorem validateNonNegative_none {v : ℚ} {f : String}
    (h : ValidateNonNegative v f = none) : 0 ≤ v := by
  by_contra hcon
  unfold ValidateNonNegative at h
  rw [if_pos (not_le.1 hcon)] at h
  exact Option.noConfusion h

theorem validateNotEmpty_none {α : Type} {l : List α} {f : String}
    (h : ValidateNotEmpty l f = none) : l ≠ [] := by
  intro hcon
  unfold ValidateNotEmpty at h
  rw [if_pos (by rw [hcon]; rfl)] at h
  exact Option.noConfusion h

theorem validateItemData_none {up : ℚ} {q : ℤ} {d : String}
    (h : ValidateItemData up q d = none) : d.trim ≠ "" ∧ 0 < up ∧ 0 < q := by
  unfold ValidateItemData at h
  cases h1 : ValidateRequired d "item description" with
  | some e => rw [h1] at h; exact Option.noConfusion h
  | none =>
    rw [h1] at h
    cases h2 : ValidatePositive up "item price" with
    | some e => rw [h2] at h; exact Option.noConfusion h
    | none =>
      rw [h2] at h
      refine ⟨validateRequired_none h1, validatePositive_none h2, ?_⟩
      by_contra hcon
      rw [if_pos (not_lt.1 hcon)] at h
      exact Option.noConfusion h

theorem validateItems_none (items : List Item) :
    ∀ i : ℕ, validateItems i items = none →
      ∀ it ∈ items, it.description.trim ≠ "" ∧ 0 < it.unitPrice ∧ 0 < it.quantity ∧
        it.paidBy.trim ≠ "" ∧ it.consumers ≠ [] := by
  induction items with
  | nil => intro i _ it hit; simp at hit
  | cons it0 rest ih =>
    intro i h it hit
    unfold validateItems at h
    cases hd : ValidateItemData it0.unitPrice it0.quantity it0.description with
    | some e => rw [hd] at h; exact absurd h (Option.noConfusion)
    | none =>
      rw [hd] at h
      cases hp : ValidateRequired it0.paidBy "item paidBy" with
      | some e => rw [hp] at h; exact absurd h (Option.noConfusion)
      | none =>
        rw [hp] at h
        cases hc : ValidateNotEmpty it0.consumers "item consumers" with
        | some e => rw [hc] at h; exact absurd h (Option.noConfusion)
        | none =>
          rw [hc] at h
          cases hn : validateNames 0 it0.consumers with
          | some e => rw [hn] at h; exact absurd h (Option.noConfusion)
          | none =>
            rw [hn] at h
            rcases List.mem_cons.1 hit with rfl | hit2
            · obtain ⟨hdesc, hup, hq⟩ := validateItemData_none hd
              exact ⟨hdesc, hup, hq, validateRequired_none hp, validateNotEmpty_none hc⟩
            · exact ih (i + 1) h it hit2

theorem validateCalculationRequest_none {req : CalculateSingleBillRequest}
    (h : validateCalculationRequest req = none) :
    req.items ≠ [] ∧ 0 ≤ req.tax ∧ 0 ≤ req.serviceCharge ∧ 0 ≤ req.totalDiscount ∧
      (∀ it ∈ req.items, it.description.trim ≠ "" ∧ 0 < it.unitPrice ∧ 0 < it.quantity ∧
        it.paidBy.trim ≠ "" ∧ it.consumers ≠ []) := by
  unfold validateCalculationRequest at h
  cases h1 : ValidateNotEmpty req.items "items" with
  | some e => rw [h1] at h; exact absurd h (Option.noConfusion)
  | none =>
    rw [h1] at h
    cases h2 : ValidateNonNegative req.tax "tax" with
    | some e => rw [h2] at h; exact absurd h (Option.noConfusion)
    | none =>
      rw [h2] at h
      cases h3 : ValidateNonNegative req.serviceCharge "service charge" with
      | some e => rw [h3] at h; exact absurd h (Option.noConfusion)
      | none =>
        rw [h3] at h
        cases h4 : ValidateNonNegative req.totalDiscount "discount" with
        | some e => rw [h4] at h; exact absurd h (Option.noConfusion)
        | none =>
          rw [h4] at h
          exact ⟨validateNotEmpty_none h1, validateNonNegative_none h2,
            validateNonNegative_none h3, validateNonNegative_none h4,
            validateItems_none req.items 0 h⟩

/-- C7: any malformed allocation request — empty item list, non-positive
price or quantity, empty consumer list, blank payer, or negative
tax/service/discount — makes `CalculateSingleBill` return a validation error
and no result. -/
theorem c7_validation_error (req : CalculateSingleBillRequest)
    (hbad : req.items = [] ∨ req.tax < 0 ∨ req.serviceCharge < 0 ∨
      req.totalDiscount < 0 ∨ ∃ it ∈ req.items,
        it.unitPrice ≤ 0 ∨ it.quantity ≤ 0 ∨ it.consumers = [] ∨ it.paidBy.trim = "") :
    ∃ e : AppError, CalculateSingleBill req = .error e := by
  cases hv : validateCalculationRequest req with
  | some e =>
    refine ⟨e, ?_⟩
    unfold CalculateSingleBill
    rw [hv]
  | none =>
    exfalso
    obtain ⟨hne, htax, hsvc, hdisc, hitems⟩ := validateCalculationRequest_none hv
    rcases hbad with h | h | h | h | ⟨it, hit, hbadit⟩
    · exact hne h
    · linarith
    · linarith
    · linarith
    · obtain ⟨_, hup, hq, hpb, hcons⟩ := hitems it hit
      rcases hbadit with h | h | h | h
      · linarith
      · omega
      · exact hcons h
      · exact hpb h

/-- Witness for C7 at a concrete malformed request (empty item list). -/
theorem c7_validation_error_witness :
    ∃ e : AppError,
      CalculateSingleBill { items := [], tax := 0, serviceCharge := 0, totalDiscount := 0 } =
        .error e :=
  c7_validation_error _ (Or.inl rfl)

theorem mem_keys_setAL {α : Type} {m : List (String × α)} {p r : String} {v : α} :
    r ∈ keysAL (setAL m p v) ↔ r ∈ keysAL m ∨ r = p := by
  induction m with
  | nil => simp [setAL]
  | cons kv rest ih =>
    obtain ⟨q, w⟩ := kv
    by_cases h : q = p <;> simp [setAL, h] at ih ⊢ <;> tauto

theorem getAL_setAL_self {α : Type} (d : α) (m : List (String × α)) (p : String) (v : α) :
    getAL d (setAL m p v) p = v := by
  induction m with
  | nil => simp [setAL, getAL]
  | cons kv rest ih =>
    obtain ⟨q, w⟩ := kv
    by_cases h : q = p
    · simp [setAL, getAL, h]
    · simp [setAL, getAL, h, ih]

theorem getAL_setAL_ne {α : Type} (d : α) (m : List (String × α)) {p r : String} (v : α)
    (h : r ≠ p) : getAL d (setAL m p v) r = getAL d m r := by
  induction m with
  | nil =>
    simp only [setAL, getAL]
    rw [if_neg (fun hh => h hh.symm)]
  | cons kv rest ih =>
    obtain ⟨q, w⟩ := kv
    by_cases hq : q = p
    · subst hq
      have hqr : q ≠ r := fun hh => h hh.symm
      simp [setAL, getAL, hqr]
    · by_cases hr : q = r
      · subst hr
        simp [setAL, getAL, hq]
      · simp [setAL, getAL, hq, hr, ih]

theorem keysAL_mapConst {α : Type} (l : List String) (x : α) :
    keysAL (l.map (fun p => (p, x))) = l := by
  induction l with
  | nil => rfl
  | cons p rest ih => simp only [List.map_cons, keysAL_cons, ih]

theorem keysAL_mapVals {α β : Type} (f : α → β) (m : List (String × α)) :
    keysAL (m.map (fun kv => (kv.1, f kv.2))) = keysAL m := by
  induction m with
  | nil => rfl
  | cons kv rest ih => simp only [List.map_cons, keysAL_cons, ih]

theorem mem_insFold (l : List String) (acc : List String) (p : String) :
    p ∈ l.foldl (fun a c => if c ∈ a then a else a ++ [c]) acc ↔ p ∈ acc ∨ p ∈ l := by
  induction l generalizing acc with
  | nil => simp
  | cons c rest ih =>
    simp only [List.foldl_cons, List.mem_cons]
    by_cases hc : c ∈ acc
    · rw [if_pos hc, ih]
      constructor
      · rintro (h | h)
        · exact Or.inl h
        · exact Or.inr (Or.inr h)
      · rintro (h | rfl | h)
        · exact Or.inl h
        · exact Or.inl hc
        · exact Or.inr h
    · rw [if_neg hc, ih]
      simp only [List.mem_append, List.mem_singleton]
      tauto

theorem mem_extractParticipants (items : List Item) (p : String) :
    p ∈ extractParticipants items ↔ ∃ it ∈ items, p ∈ it.consumers := by
  unfold extractParticipants
  suffices h : ∀ (acc : List String),
      p ∈ items.foldl (fun acc it =>
        it.consumers.foldl (fun a c => if c ∈ a then a else a ++ [c]) acc) acc ↔
      p ∈ acc ∨ ∃ it ∈ items, p ∈ it.consumers by
    rw [h []]
    simp
  induction items with
  | nil => intro acc; simp
  | cons it rest ih =>
    intro acc
    simp only [List.foldl_cons, ih, mem_insFold, List.mem_cons]
    constructor
    · rintro ((h | h) | ⟨it2, h2, h3⟩)
      · exact Or.inl h
      · exact Or.inr ⟨it, Or.inl rfl, h⟩
      · exact Or.inr ⟨it2, Or.inr h2, h3⟩
    · rintro (h | ⟨it2, (rfl | h2), h3⟩)
      · exact Or.inl (Or.inl h)
      · exact Or.inl (Or.inr h3)
      · exact Or.inr ⟨it2, h2, h3⟩

theorem mem_keys_bdSetFold (l : List String)
    (f : BreakdownMap → String → PersonChargeBreakdown) (m : BreakdownMap) (r : String) :
    r ∈ keysAL (l.foldl (fun m2 c => setAL m2 c (f m2 c)) m) ↔ r ∈ keysAL m ∨ r ∈ l := by
  induction l generalizing m with
  | nil => simp
  | cons c rest ih =>
    simp only [List.foldl_cons, ih, mem_keys_setAL, List.mem_cons]
    tauto

theorem mem_keys_bdItemApply (it : Item) (m : BreakdownMap) (r : String) :
    r ∈ keysAL (bdItemApply it m) ↔ r ∈ keysAL m ∨ r ∈ it.consumers := by
  unfold bdItemApply
  dsimp only
  by_cases hlen : it.consumers.length > 0
  · rw [if_pos hlen]
    exact mem_keys_bdSetFold ..
  · rw [if_neg hlen]
    have : it.consumers = [] := by
      cases hc : it.consumers with
      | nil => rfl
      | cons a l => rw [hc] at hlen; simp at hlen
    rw [this]
    simp

theorem mem_keys_breakdownAfterItems (items : List Item) (parts : List String) (r : String) :
    r ∈ keysAL (breakdownAfterItems items parts) ↔
      r ∈ parts ∨ ∃ it ∈ items, r ∈ it.consumers := by
  unfold breakdownAfterItems
  suffices h : ∀ (m : BreakdownMap),
      r ∈ keysAL (items.foldl (fun m it => bdItemApply it m) m) ↔
        r ∈ keysAL m ∨ ∃ it ∈ items, r ∈ it.consumers by
    rw [h _, keysAL_mapConst]
  induction items with
  | nil => intro m; simp
  | cons it rest ih =>
    intro m
    simp only [List.foldl_cons, ih, mem_keys_bdItemApply, List.mem_cons]
    constructor
    · rintro ((h | h) | ⟨it2, h2, h3⟩)
      · exact Or.inl h
      · exact Or.inr ⟨it, Or.inl rfl, h⟩
      · exact Or.inr ⟨it2, Or.inr h2, h3⟩
    · rintro (h | ⟨it2, (rfl | h2), h3⟩)
      · exact Or.inl (Or.inl h)
      · exact Or.inl (Or.inr h3)
      · exact Or.inr ⟨it2, h2, h3⟩

theorem mem_keys_propFold_fst (tax svc disc stot : ℚ) (parts : List String)
    (st : List (String × ℚ) × BreakdownMap) (r : String) :
    r ∈ keysAL (parts.foldl (applyProportional tax svc disc stot) st).1 ↔
      r ∈ keysAL st.1 ∨ r ∈ parts := by
  induction parts generalizing st with
  | nil => simp
  | cons p rest ih =>
    simp only [List.foldl_cons, ih, applyProportional, mem_keys_setAL, List.mem_cons]
    tauto

theorem mem_keys_propFold_snd (tax svc disc stot : ℚ) (parts : List String)
    (st : List (String × ℚ) × BreakdownMap) (r : String) :
    r ∈ keysAL (parts.foldl (applyProportional tax svc disc stot) st).2 ↔
      r ∈ keysAL st.2 ∨ r ∈ parts := by
  induction parts generalizing st with
  | nil => simp
  | cons p rest ih =>
    simp only [List.foldl_cons, ih, applyProportional, mem_keys_setAL, List.mem_cons]
    tauto

theorem mem_keys_equalFold_fst (tax svc disc : ℚ) (n : ℕ) (parts : List String)
    (st : List (String × ℚ) × BreakdownMap) (r : String) :
    r ∈ keysAL (parts.foldl (applyEqualExtras tax svc disc n) st).1 ↔
      r ∈ keysAL st.1 ∨ r ∈ parts := by
  induction parts generalizing st with
  | nil => simp
  | cons p rest ih =>
    simp only [List.foldl_cons, ih, applyEqualExtras, mem_keys_setAL, List.mem_cons]
    tauto

theorem mem_keys_equalFold_snd (tax svc disc : ℚ) (n : ℕ) (parts : List String)
    (st : List (String × ℚ) × BreakdownMap) (r : String) :
    r ∈ keysAL (parts.foldl (applyEqualExtras tax svc disc n) st).2 ↔
      r ∈ keysAL st.2 ∨ r ∈ parts := by
  induction parts generalizing st with
  | nil => simp
  | cons p rest ih =>
    simp only [List.foldl_cons, ih, applyEqualExtras, mem_keys_setAL, List.mem_cons]
    tauto

/-- C9: the key set of both maps returned by the charge allocator is exactly
the union of the items' consumer lists; in particular an item payer who is
not also a consumer appears in neither map. -/
theorem c9_allocator_keys (items : List Item) (tax svc disc : ℚ) (r : String) :
    (r ∈ keysAL (calculatePersonalCharges items tax svc disc
        (extractParticipants items)).1 ↔ ∃ it ∈ items, r ∈ it.consumers) ∧
    (r ∈ keysAL (calculatePersonalCharges items tax svc disc
        (extractParticipants items)).2 ↔ ∃ it ∈ items, r ∈ it.consumers) := by
  have hparts := mem_extractParticipants items r
  have hbd1 : r ∈ keysAL (breakdownAfterItems items (extractParticipants items)) ↔
      ∃ it ∈ items, r ∈ it.consumers := by
    rw [mem_keys_breakdownAfterItems, hparts, or_self]
  unfold calculatePersonalCharges
  dsimp only
  split
  · constructor
    · rw [mem_keys_propFold_fst, keysAL_mapConst, hparts, or_self]
    · rw [keysAL_mapVals, mem_keys_propFold_snd, hbd1, hparts, or_self]
  · split
    · constructor
      · rw [mem_keys_equalFold_fst, keysAL_mapConst, hparts, or_self]
      · rw [keysAL_mapVals, mem_keys_equalFold_snd, hbd1, hparts, or_self]
    · constructor
      · rw [keysAL_mapConst]
        exact hparts
      · rw [keysAL_mapVals, hbd1]

theorem roundBD_zeroBD : roundBD zeroBD = zeroBD := by
  unfold roundBD zeroBD
  rw [Round_eq_self isCents_zero]

theorem getBD_map_roundBD (m : BreakdownMap) (p : String) :
    getBD (m.map (fun kv => (kv.1, roundBD kv.2))) p = roundBD (getBD m p) := by
  induction m with
  | nil => simp [getBD, getAL, roundBD_zeroBD]
  | cons kv rest ih =>
    obtain ⟨q, w⟩ := kv
    by_cases h : q = p <;> simp [getBD, getAL, h] at ih ⊢ <;> simp [ih]

theorem mem_setAL {α : Type} {m : List (String × α)} {p : String} {v : α} {kv : String × α}
    (h : kv ∈ setAL m p v) : kv ∈ m ∨ kv = (p, v) := by
  induction m with
  | nil => simp [setAL] at h; exact Or.inr h
  | cons qw rest ih =>
    obtain ⟨q, w⟩ := qw
    by_cases hq : q = p
    · rw [setAL, if_pos hq] at h
      rcases List.mem_cons.1 h with rfl | hmem
      · exact Or.inr (by rw [hq])
      · exact Or.inl (List.mem_cons_of_mem _ hmem)
    · rw [setAL, if_neg hq] at h
      rcases List.mem_cons.1 h with rfl | hmem
      · exact Or.inl (List.mem_cons_self _ _)
      · rcases ih hmem with h2 | h2
        · exact Or.inl (List.mem_cons_of_mem _ h2)
        · exact Or.inr h2

theorem allBDCents_setAL {m : BreakdownMap} {p : String} {v : PersonChargeBreakdown}
    (h : AllBDCents m) (hv : IsCents v.subtotal) : AllBDCents (setAL m p v) := by
  intro kv hkv
  rcases mem_setAL hkv with h2 | h2
  · exact h kv h2
  · rw [h2]
    exact hv

theorem getBD_cents {m : BreakdownMap} (h : AllBDCents m) (p : String) :
    IsCents (getBD m p).subtotal := by
  induction m with
  | nil => exact isCents_zero
  | cons kv rest ih =>
    obtain ⟨q, w⟩ := kv
    by_cases hq : q = p
    · have := h (q, w) (List.mem_cons_self _ _)
      simpa [getBD, getAL, hq] using this
    · simp only [getBD, getAL, if_neg hq]
      exact ih (fun kv2 hkv2 => h kv2 (List.mem_cons_of_mem _ hkv2))

theorem allBDCents_bdItemApply (it : Item) {m : BreakdownMap} (h : AllBDCents m) :
    AllBDCents (bdItemApply it m) := by
  unfold bdItemApply
  dsimp only
  split
  · suffices hgen : ∀ (cs : List String) (m2 : BreakdownMap), AllBDCents m2 →
        AllBDCents (cs.foldl (fun m2 c =>
          setAL m2 c { getBD m2 c with
            subtotal := (getBD m2 c).subtotal +
              Round (Round (it.unitPrice * (it.quantity : ℚ) - it.itemDiscount) /
                (it.consumers.length : ℚ))
            total := (getBD m2 c).total +
              Round (Round (it.unitPrice * (it.quantity : ℚ) - it.itemDiscount) /
                (it.consumers.length : ℚ)) }) m2) by
      exact hgen it.consumers m h
    intro cs
    induction cs with
    | nil => intro m2 h2; exact h2
    | cons c rest ih =>
      intro m2 h2
      rw [List.foldl_cons]
      exact ih _ (allBDCents_setAL h2 (isCents_add (getBD_cents h2 c) (isCents_Round _)))
  · exact h

theorem allBDCents_breakdownAfterItems (items : List Item) (parts : List String) :
    AllBDCents (breakdownAfterItems items parts) := by
  unfold breakdownAfterItems
  suffices hgen : ∀ m : BreakdownMap, AllBDCents m →
      AllBDCents (items.foldl (fun m it => bdItemApply it m) m) by
    refine hgen _ ?_
    intro kv hkv
    rw [List.mem_map] at hkv
    obtain ⟨p, _, rfl⟩ := hkv
    exact isCents_zero
  induction items with
  | nil => intro m h; exact h
  | cons it rest ih =>
    intro m h
    rw [List.foldl_cons]
    exact ih _ (allBDCents_bdItemApply it h)

theorem propFold_getBD_not_mem (tax svc disc stot : ℚ) (parts : List String) (p : String)
    (hp : p ∉ parts) :
    ∀ st : List (String × ℚ) × BreakdownMap,
      getBD (parts.foldl (applyProportional tax svc disc stot) st).2 p = getBD st.2 p := by
  induction parts with
  | nil => intro st; rfl
  | cons q rest ih =>
    intro st
    have hq : p ≠ q := fun h => hp (h ▸ List.mem_cons_self _ _)
    have hrest : p ∉ rest := fun h => hp (List.mem_cons_of_mem _ h)
    rw [List.foldl_cons, ih hrest]
    unfold applyProportional getBD
    dsimp only
    exact getAL_setAL_ne _ _ _ hq

theorem propFold_getBD (tax svc disc stot : ℚ) (parts : List String) (p : String) :
    ∀ st : List (String × ℚ) × BreakdownMap, parts.Nodup → p ∈ parts →
      getBD (parts.foldl (applyProportional tax svc disc stot) st).2 p =
        propBD tax svc disc stot (getBD st.2 p) := by
  induction parts with
  | nil => intro st _ hp; cases hp
  | cons q rest ih =>
    intro st hnd hp
    rw [List.foldl_cons]
    rcases List.mem_cons.1 hp with rfl | hmem
    · have hrest : p ∉ rest := (List.nodup_cons.1 hnd).1
      rw [propFold_getBD_not_mem tax svc disc stot rest p hrest]
      unfold applyProportional getBD propBD
      dsimp only
      rw [getAL_setAL_self]
    · by_cases hq : p = q
      · subst hq
        exact absurd hmem (List.nodup_cons.1 hnd).1
      · have hpre : getBD (applyProportional tax svc disc stot st q).2 p = getBD st.2 p := by
          unfold applyProportional getBD
          dsimp only
          exact getAL_setAL_ne _ _ _ hq
        rw [ih _ (List.nodup_cons.1 hnd).2 hmem, hpre]

theorem roundBD_propBD {tax svc disc stot : ℚ} {old : PersonChargeBreakdown}
    (h : IsCents old.subtotal) :
    roundBD (propBD tax svc disc stot old) = propBD tax svc disc stot old := by
  unfold roundBD propBD
  dsimp only
  rw [Round_eq_self h, Round_eq_self (isCents_Round _), Round_eq_self (isCents_Round _),
    Round_eq_self (isCents_Round _), Round_eq_self (isCents_Round _)]

theorem nodup_insFold (l : List String) (acc : List String) (h : acc.Nodup) :
    (l.foldl (fun a c => if c ∈ a then a else a ++ [c]) acc).Nodup := by
  induction l generalizing acc with
  | nil => exact h
  | cons c rest ih =>
    rw [List.foldl_cons]
    by_cases hc : c ∈ acc
    · rw [if_pos hc]
      exact ih _ h
    · rw [if_neg hc]
      refine ih _ ?_
      rw [List.nodup_append]
      refine ⟨h, List.nodup_singleton c, fun x hx hmem => ?_⟩
      rw [List.mem_singleton] at hmem
      exact hc (hmem ▸ hx)

theorem nodup_extractParticipants (items : List Item) : (extractParticipants items).Nodup := by
  unfold extractParticipants
  suffices hgen : ∀ acc : List String, acc.Nodup →
      (items.foldl (fun acc it =>
        it.consumers.foldl (fun a c => if c ∈ a then a else a ++ [c]) acc) acc).Nodup by
    exact hgen [] List.nodup_nil
  induction items with
  | nil => intro acc h; exact h
  | cons it rest ih =>
    intro acc h
    rw [List.foldl_cons]
    exact ih _ (nodup_insFold _ _ h)

/-- C6 (amended): when the phase-1 total subtotal is positive, each
participant's returned breakdown is exactly `propBD`: the stored tax, service
charge and discount are the cent-rounded proportional shares, while the
stored total is the rounding of the subtotal plus the UNROUNDED proportional
shares — so in general total differs from subtotal + tax + serviceCharge −
discount over the returned fields. -/
theorem c6_total_formula (items : List Item) (tax svc disc : ℚ) (p : String)
    (hp : p ∈ extractParticipants items)
    (hpos : 0 < totalSubtotalOf (breakdownAfterItems items (extractParticipants items))
      (extractParticipants items)) :
    getBD (calculatePersonalCharges items tax svc disc (extractParticipants items)).2 p =
      propBD tax svc disc
        (totalSubtotalOf (breakdownAfterItems items (extractParticipants items))
          (extractParticipants items))
        (getBD (breakdownAfterItems items (extractParticipants items)) p) := by
  have hnd : (extractParticipants items).Nodup := nodup_extractParticipants items
  have hlen : (extractParticipants items).length > 0 := by
    cases hE : extractParticipants items with
    | nil => rw [hE] at hp; cases hp
    | cons a l => simp [hE]
  unfold calculatePersonalCharges
  dsimp only
  rw [if_pos ⟨hpos, hlen⟩, getBD_map_roundBD, propFold_getBD _ _ _ _ _ _ _ hnd hp]
  exact roundBD_propBD (getBD_cents (allBDCents_breakdownAfterItems items _) p)

/-- Witness for the amended C6 at the concrete input `c6items` with tax 0.01
and service charge 0.01, participant "a". -/
theorem c6_total_formula_witness :
    "a" ∈ extractParticipants c6items ∧
    0 < totalSubtotalOf (breakdownAfterItems c6items (extractParticipants c6items))
      (extractParticipants c6items) ∧
    getBD (calculatePersonalCharges c6items (1/100) (1/100) 0
        (extractParticipants c6items)).2 "a" =
      propBD (1/100) (1/100) 0
        (totalSubtotalOf (breakdownAfterItems c6items (extractParticipants c6items))
          (extractParticipants c6items))
        (getBD (breakdownAfterItems c6items (extractParticipants c6items)) "a") := by
  have sab : (("a" : String) = "b") = False := eq_false (by decide)
  have sac : (("a" : String) = "c") = False := eq_false (by decide)
  have sba : (("b" : String) = "a") = False := eq_false (by decide)
  have sbc : (("b" : String) = "c") = False := eq_false (by decide)
  have sca : (("c" : String) = "a") = False := eq_false (by decide)
  have scb : (("c" : String) = "b") = False := eq_false (by decide)
  have hparts : extractParticipants c6items = ["a", "b", "c"] := by
    simp [extractParticipants, c6items, List.foldl_cons, List.foldl_nil, sab, sac, sba, sbc,
      sca, scb]
  have hp : "a" ∈ extractParticipants c6items := by
    rw [hparts]
    exact List.mem_cons_self _ _
  have hpos : 0 < totalSubtotalOf (breakdownAfterItems c6items (extractParticipants c6items))
      (extractParticipants c6items) := by
    rw [hparts]
    norm_num [totalSubtotalOf, breakdownAfterItems, bdItemApply, getBD, getAL, setAL, zeroBD,
      Round, roundHalf, c6items, List.foldl_cons, List.foldl_nil, List.map_cons, List.map_nil,
      sab, sac, sba, sbc, sca, scb]
  exact ⟨hp, hpos, c6_total_formula c6items (1/100) (1/100) 0 "a" hp hpos⟩

/-- C6 is false as stated: on the valid input `c6items` (one 100.00 item
shared by three consumers) with tax 0.01 and service charge 0.01, person "a"
is returned total 33.34 while subtotal + tax + serviceCharge − discount of
the returned fields is 33.33 + 0 + 0 − 0 = 33.33: the total rounds the
unrounded proportional shares, not the returned rounded ones. -/
theorem c6_counterexample :
    getBD (calculatePersonalCharges c6items (1/100) (1/100) 0
        (extractParticipants c6items)).2 "a" =
      { subtotal := 3333/100
        tax := 0
        serviceCharge := 0
        discount := 0
        total := 3334/100 } ∧
    ¬ ((3334 : ℚ)/100 = 3333/100 + 0 + 0 - 0) := by
  have sab : (("a" : String) = "b") = False := eq_false (by decide)
  have sac : (("a" : String) = "c") = False := eq_false (by decide)
  have sba : (("b" : String) = "a") = False := eq_false (by decide)
  have sbc : (("b" : String) = "c") = False := eq_false (by decide)
  have sca : (("c" : String) = "a") = False := eq_false (by decide)
  have scb : (("c" : String) = "b") = False := eq_false (by decide)
  have hparts : extractParticipants c6items = ["a", "b", "c"] := by
    simp [extractParticipants, c6items, List.foldl_cons, List.foldl_nil, sab, sac, sba, sbc,
      sca, scb]
  constructor
  · rw [hparts]
    norm_num [calculatePersonalCharges, breakdownAfterItems, bdItemApply, totalSubtotalOf,
      applyProportional, applyEqualExtras, roundBD, getBD, getAL, setAL, zeroBD, Round,
      roundHalf, c6items, List.foldl_cons, List.foldl_nil, List.map_cons, List.map_nil,
      sab, sac, sba, sbc, sca, scb]
  · norm_num

end ShareTab

